import Mathlib

/-!
Shallow embedding of the dependency-graph engine of `src/scanner.py`
(`ImportScanner` and its helper functions), together with theorems checking
the natural-language specification of that engine against the code.

Conventions of the embedding:
* Python strings are `String`, lists are `List`, and Python sets are lists
  used only through membership (iteration order of a Python set is
  unspecified, so theorems about set iteration quantify over the order).
* Python dicts keyed by strings are association lists; assignment replaces
  an existing binding in place and otherwise appends.
* File-system paths are lists of path components relative to the project
  root; a missing or non-directory project root is `Option.none`.
* Fallible parsing is `Option`: `none` models an unreadable or unparsable
  file.
* `str.split` and `str.join` are re-implemented structurally (`splitDot`,
  `joinDots`) with the exact Python semantics, so that every definition
  evaluates inside the kernel.
-/
/-! ### String helpers (Python `split`, `join`, suffix tests) -/
/-- Python `str.split('.')` on the underlying character list: splitting an
empty string yields one empty group, every separator occurrence starts a
new group. -/
def splitDotChars : List Char → List (List Char)
  | [] => [[]]
  | c :: cs =>
      let r := splitDotChars cs
      if c = '.' then [] :: r
      else
        match r with
        | [] => [[c]]
        | g :: gs => (c :: g) :: gs

/-- Python `str.split('.')`. -/
def splitDot (s : String) : List String :=
  (splitDotChars s.toList).map String.mk

/-- Python `'.'.join(parts)`. -/
def joinDots : List String → String
  | [] => ""
  | [p] => p
  | p :: rest => p ++ "." ++ joinDots rest

/-- Python `name.endswith(".py")`. -/
def isPyFile (name : String) : Bool :=
  ".py".toList.isSuffixOf name.toList

/-- Models `Path.with_suffix("")` on a file name that ends in `.py`:
pathlib strips the last suffix, except that a name consisting only of the
suffix (the file named `.py`) has no suffix to strip. -/
def pyStem (name : String) : String :=
  if name = ".py" then name else String.mk (name.toList.take (name.toList.length - 3))

/-! ### Name resolution (`to_fqn`, `resolve_from_import`) -/
/-- Embeds `to_fqn`: the path components of the file relative to the
project root, with the source suffix stripped, joined with dots. -/
def fqnOf (dirParts : List String) (name : String) : String :=
  joinDots (dirParts ++ [pyStem name])

/-- Embeds `resolve_from_import` from `src/scanner.py`.  `module = none`
models Python `None`; the source guards with `if module:`, which is also
false for an empty string, and guards the truncation with `if level:`, so a
level of `0` leaves the package prefix unchanged.  For `level > 1` the
Python slice `pkg_parts[: -level + 1]` keeps the first
`length - (level - 1)` elements, which is the empty list when `level - 1`
is at least the length. -/
def resolve_from_import (current_fqn : String) (level : Nat) (module : Option String) : String :=
  let pkg_parts := (splitDot current_fqn).dropLast
  let pkg_parts :=
    if level ≠ 0 then
      if level > 1 then pkg_parts.take (pkg_parts.length - (level - 1)) else pkg_parts
    else pkg_parts
  match module with
  | some m => if m ≠ "" then joinDots (pkg_parts ++ [m]) else joinDots pkg_parts
  | none => joinDots pkg_parts

/-! ### Import statements and the `ast.walk` loop of `_scan_file` -/
/-- The statement shapes relevant to `_scan_file`: plain import statements
(`ast.Import`, one name per alias, in source order), from-imports
(`ast.ImportFrom`, carrying the relative level and the optional module
clause), and compound statements (functions, classes, conditionals, loops)
whose body holds nested statements. -/
inductive Stmt : Type where
  | imp (names : List String)
  | impFrom (level : Nat) (module : Option String)
  | compound (body : List Stmt)

mutual

/-- Size measure of a statement tree. -/
def stmtSize : Stmt → Nat
  | .imp _ => 1
  | .impFrom _ _ => 1
  | .compound body => 1 + stmtListSize body

/-- Size measure of a statement list. -/
def stmtListSize : List Stmt → Nat
  | [] => 0
  | s :: rest => stmtSize s + stmtListSize rest

end

/-- The child statements `ast.iter_child_nodes` contributes to the walk. -/
def stmtChildren : Stmt → List Stmt
  | .compound body => body
  | _ => []

/-- Breadth-first queue traversal with explicit fuel (each step consumes
one queue element, so `stmtListSize` of the seed is always enough fuel). -/
def walkBFSFuel : Nat → List Stmt → List Stmt
  | 0, _ => []
  | _, [] => []
  | fuel + 1, s :: rest => s :: walkBFSFuel fuel (rest ++ stmtChildren s)

/-- Embeds the traversal order of `ast.walk`: breadth-first over the
statement tree through a FIFO queue seeded with the module body. -/
def walkBFS (body : List Stmt) : List Stmt :=
  walkBFSFuel (stmtListSize body) body

/-- The raw-import entries `_scan_file` appends when the walk visits one
node: every alias name of a plain import, the single resolved target of a
from-import, nothing for other statements. -/
def impEntries (fqn : String) : Stmt → List String
  | .imp names => names
  | .impFrom level module => [resolve_from_import fqn level module]
  | .compound _ => []

/-- Net effect of the `ast.walk` loop of `_scan_file` on a parsed body. -/
def collectImports (fqn : String) (body : List Stmt) : List String :=
  (walkBFS body).map (impEntries fqn) |>.flatten

mutual

/-- Import entries in source-text order (preorder over the statement
tree); this is the order the specification describes, stated here so that
it can be compared with the breadth-first order the code produces. -/
def srcEntries (fqn : String) : Stmt → List String
  | .imp names => names
  | .impFrom level module => [resolve_from_import fqn level module]
  | .compound body => srcEntriesList fqn body

/-- Source-text-order entries of a statement list. -/
def srcEntriesList (fqn : String) : List Stmt → List String
  | [] => []
  | s :: rest => srcEntries fqn s ++ srcEntriesList fqn rest

end

/-! ### The file-system model and the two tree walks -/
/-- One directory entry that is a file: its name and, when it is a source
file, its parse result (`none` models an unreadable or unparsable file). -/
structure FileEnt where
  name : String
  content : Option (List Stmt)

mutual

/-- A directory: its files and its subdirectories. -/
inductive Dir : Type where
  | mk (files : List FileEnt) (subs : SubDirs)

/-- The named subdirectories of a directory, in `os.walk` iteration
order. -/
inductive SubDirs : Type where
  | nil
  | cons (name : String) (d : Dir) (rest : SubDirs)

end

def Dir.files : Dir → List FileEnt
  | .mk fs _ => fs

def Dir.subs : Dir → SubDirs
  | .mk _ s => s

mutual

/-- First pass, `_find_local_packages_and_modules`, package half: the
dotted relative name of every directory carrying `__init__.py` (the
project root itself yields the empty name).  No venv pruning happens in
this pass. -/
def surveyPkgs (rel : List String) : Dir → List String
  | .mk files subs =>
      (if files.any (fun f => f.name = "__init__.py") then [joinDots rel] else [])
        ++ surveyPkgsSubs rel subs

/-- Package survey over a subdirectory list. -/
def surveyPkgsSubs (rel : List String) : SubDirs → List String
  | .nil => []
  | .cons n d rest => surveyPkgs (rel ++ [n]) d ++ surveyPkgsSubs rel rest

end

mutual

/-- First pass, module half: the FQN of every `.py` file anywhere in the
tree, venv directories included. -/
def surveyMods (rel : List String) : Dir → List String
  | .mk files subs =>
      (files.filter (fun f => isPyFile f.name)).map (fun f => fqnOf rel f.name)
        ++ surveyModsSubs rel subs

/-- Module survey over a subdirectory list. -/
def surveyModsSubs (rel : List String) : SubDirs → List String
  | .nil => []
  | .cons n d rest => surveyMods (rel ++ [n]) d ++ surveyModsSubs rel rest

end

/-- A source file as the second walk visits it: the directory path
relative to the root, the file name, and the parse result. -/
abbrev FileTriple := List String × String × Option (List Stmt)

mutual

/-- The `os.walk` loop of `scan` with the venv rule: a directory whose
file list contains `pyvenv.cfg` contributes none of its own files
(`continue`) and none of its subtrees (`dirs[:] = []`). -/
def walkScan (rel : List String) : Dir → List FileTriple
  | .mk files subs =>
      if files.any (fun f => f.name = "pyvenv.cfg") then []
      else
        (files.filter (fun f => isPyFile f.name)).map (fun f => (rel, f.name, f.content))
          ++ walkScanSubs rel subs

/-- Source walk over a subdirectory list. -/
def walkScanSubs (rel : List String) : SubDirs → List FileTriple
  | .nil => []
  | .cons n d rest => walkScan (rel ++ [n]) d ++ walkScanSubs rel rest

end

/-! ### Scanner state, classification, and `scan` -/
/-- The per-module dict value of `module_info`: the stored path, the
raw import list, and the two partitions added by `_categorize_imports`. -/
structure ModData where
  path : List String
  imports : List String
  internal_imports : List String
  external_imports : List String
deriving DecidableEq

/-- The mutable state of one `ImportScanner` instance. -/
structure ScanState where
  module_info : List (String × ModData)
  local_packages : List String
  all_local_modules : List String
deriving DecidableEq

/-- Python dict assignment `d[k] = v`: replace the binding in place when
the key exists, otherwise append it. -/
def dictInsert (m : List (String × ModData)) (k : String) (v : ModData) :
    List (String × ModData) :=
  if m.any (fun p => p.1 = k) then m.map (fun p => if p.1 = k then (k, v) else p)
  else m ++ [(k, v)]

/-- The record `scan` plus `_scan_file` produce for one visited file: the
record starts with an empty import list and keeps it when parsing fails. -/
def fileRecord (t : FileTriple) : String × ModData :=
  let fqn := fqnOf t.1 t.2.1
  (fqn, ⟨t.1 ++ [t.2.1], (t.2.2).elim [] (collectImports fqn), [], []⟩)

/-- The per-file loop of `scan` over the visited files. -/
def scanFiles (ts : List FileTriple) : List (String × ModData) :=
  ts.foldl (fun mi t => dictInsert mi (fileRecord t).1 (fileRecord t).2) []

/-- Embeds the classification test of `_categorize_imports`:
`imported_name in self.all_local_modules or imported_name.split('.')[0] in
self.local_packages`.  `splitDot` never returns the empty list, so the
head default is never read. -/
def isInternal (local_packages all_local_modules : List String) (t : String) : Bool :=
  all_local_modules.contains t || local_packages.contains ((splitDot t).headD "")

/-- The accumulator loop of `_categorize_imports` over one raw import
list, producing the internal and the external partition. -/
def categorizeLoop (lp am : List String) (ts : List String) : List String × List String :=
  ts.foldl
    (fun acc t =>
      if isInternal lp am t then (acc.1 ++ [t], acc.2) else (acc.1, acc.2 ++ [t]))
    ([], [])

/-- Embeds `_categorize_imports` applied to every record of the dict. -/
def categorizeState (lp am : List String) (mi : List (String × ModData)) :
    List (String × ModData) :=
  mi.map (fun p =>
    (p.1,
      { p.2 with
        internal_imports := (categorizeLoop lp am p.2.imports).1
        external_imports := (categorizeLoop lp am p.2.imports).2 }))

/-- Embeds `ImportScanner.scan`.  `root = none` models a project root that
is missing or not a directory: the source clears `module_info`
unconditionally before the validity check, but the catalog sets are
cleared only inside `_find_local_packages_and_modules`, which runs only
when the root is valid. -/
def scan (st : ScanState) (root : Option Dir) : ScanState :=
  let st1 : ScanState := { st with module_info := [] }
  match root with
  | none => st1
  | some d =>
      let lp := surveyPkgs [] d
      let am := surveyMods [] d
      let mi := scanFiles (walkScan [] d)
      { module_info := categorizeState lp am mi
        local_packages := lp
        all_local_modules := am }

/-- Embeds `build_graph`: one key per record, mapped to the set of its
internal imports.  Python materialises a `set`, modelled as the
duplicate-free list of the internal imports. -/
def build_graph (st : ScanState) : List (String × List String) :=
  st.module_info.map (fun p => (p.1, p.2.internal_imports.dedup))

/-! ### Tarjan strongly connected components -/
/-- Successor lookup `graph.get(v, ())`: a key missing from the adjacency
mapping yields no successors. -/
def getSuccs (g : List (String × List String)) (v : String) : List String :=
  (g.lookup v).getD []

/-- The mutable state of `strongly_connected_components`: the next
discovery index, the traversal stack (top at the head, matching Python
`append`/`pop` at the end of the list), the `onstack` membership set, the
`indices` and `lowlink` dicts, and the accumulated components. -/
structure TState where
  index : Nat
  stack : List String
  onstack : List String
  indices : String → Option Nat
  lowlink : String → Option Nat
  sccs : List (List String)

/-- The `while True` pop loop closing a component: pop down to and
including `v`, returning the component in pop order and the remaining
stack. -/
def popComp (v : String) : List String → List String × List String
  | [] => ([], [])
  | w :: rest =>
      if w = v then ([w], rest)
      else
        let p := popComp v rest
        (w :: p.1, p.2)

/-- One iteration of the `for w in graph.get(v, ())` loop of `dfs`;
`recd` is the recursive `dfs` call at the remaining depth. -/
def succStep (recd : String → TState → TState) (v w : String) (st : TState) : TState :=
  if (st.indices w).isNone then
    let st1 := recd w st
    { st1 with
      lowlink := fun x =>
        if x = v then some (min ((st1.lowlink v).getD 0) ((st1.lowlink w).getD 0))
        else st1.lowlink x }
  else if w ∈ st.onstack then
    { st with
      lowlink := fun x =>
        if x = v then some (min ((st.lowlink v).getD 0) ((st.indices w).getD 0))
        else st.lowlink x }
  else st

/-- Entry of the inner `dfs`: assign the discovery index and the low-link,
advance the counter, push the node onto the stack and into `onstack`. -/
def pushNode (v : String) (st : TState) : TState :=
  { st with
    indices := fun x => if x = v then some st.index else st.indices x
    lowlink := fun x => if x = v then some st.index else st.lowlink x
    index := st.index + 1
    stack := v :: st.stack
    onstack := v :: st.onstack }

/-- Exit of the inner `dfs`: when the node's low-link equals its own
discovery index, pop the stack down to and including the node and record
the popped component when it has more than one member. -/
def closeNode (v : String) (st2 : TState) : TState :=
  if (st2.lowlink v).getD 0 = (st2.indices v).getD 0 then
    { st2 with
      stack := (popComp v st2.stack).2
      onstack := st2.onstack.filter (fun x => decide (x ∉ (popComp v st2.stack).1))
      sccs :=
        if (popComp v st2.stack).1.length > 1 then st2.sccs ++ [(popComp v st2.stack).1]
        else st2.sccs }
  else st2

/-- The body of the inner `dfs` of `strongly_connected_components`:
index and push the node, fold the successor loop, then close. -/
def dfsGo (g : List (String × List String)) (recd : String → TState → TState)
    (v : String) (st : TState) : TState :=
  closeNode v ((getSuccs g v).foldl (fun s w => succStep recd v w s) (pushNode v st))

/-- The inner `dfs`, with fuel bounding the recursion depth (the Python
recursion terminates because every call immediately indexes a fresh node,
so any fuel exceeding the number of unvisited nodes behaves like the
unbounded recursion). -/
def dfsT (g : List (String × List String)) : Nat → String → TState → TState
  | 0 => fun _ st => st
  | fuel + 1 => dfsGo g (dfsT g fuel)

/-- Every node the algorithm can ever touch: the keys and every mentioned
successor. -/
def nodesOf (g : List (String × List String)) : List String :=
  (g.map Prod.fst ++ (g.map Prod.snd).flatten).dedup

/-- The initial state of `strongly_connected_components`. -/
def initTState : TState :=
  ⟨0, [], [], fun _ => none, fun _ => none, []⟩

/-- Fuel that always suffices (strictly more than the number of nodes). -/
def fuelFor (g : List (String × List String)) : Nat :=
  (nodesOf g).length + 1

/-- Embeds `strongly_connected_components`: run `dfs` from every not yet
visited key of the mapping, in key order, and return the accumulated
components. -/
def strongly_connected_components (g : List (String × List String)) :
    List (List String) :=
  (g.foldl
    (fun st p => if (st.indices p.1).isNone then dfsT g (fuelFor g) p.1 st else st)
    initTState).sccs

/-- Embeds `find_cycles`: the components of the internal-imports graph. -/
def find_cycles (st : ScanState) : List (List String) :=
  strongly_connected_components (build_graph st)

/-- Concrete project used to witness the partition law: one module with
one external import. -/
def exDirC2 : Dir := .mk [⟨"a.py", some [.imp ["os"]]⟩] .nil

/-- Concrete project used to witness the classification rule: module `a`
imports local module `b`. -/
def exDirC3 : Dir := .mk [⟨"a.py", some [.imp ["b"]]⟩, ⟨"b.py", some []⟩] .nil

/-! ### `resolve_from_import` against the spec's description -/
/-- The specification's own description of `resolveRelative`: take the
FQN's segments with the last removed; when `level > 1` drop `level - 1`
further trailing segments (one `dropLast` per segment); level `0` and
level `1` keep the prefix unchanged; join with the module clause when one
is supplied. -/
def resolveRelativeSpec (current_fqn : String) (level : Nat) (module : Option String) :
    String :=
  let pkgParts := (splitDot current_fqn).dropLast
  let pkgParts := if level > 1 then (List.dropLast)^[level - 1] pkgParts else pkgParts
  match module with
  | some m => joinDots (pkgParts ++ [m])
  | none => joinDots pkgParts

/-- Concrete project whose scan stores a package in the catalog. -/
def exDirC5 : Dir := .mk [] (.cons "p" (.mk [⟨"__init__.py", some []⟩] .nil) .nil)

/-- FQNs of the files the scanning walk visits, in visit order. -/
def walkedFqns (d : Dir) : List String :=
  (walkScan [] d).map (fun t => fqnOf t.1 t.2.1)

/-- Body whose nested import comes first in the source text. -/
def exBodyC6 : List Stmt := [.compound [.imp ["a"]], .imp ["b"]]

/-- A project with one file holding a nested import before a top-level
one. -/
def exDirC6 : Dir := .mk [⟨"m.py", some exBodyC6⟩] .nil

/-- Flat body used to witness the amended order statement. -/
def exBodyC6b : List Stmt := [.imp ["x", "y"], .impFrom 1 (some "z")]

/-- A project with one flat file. -/
def exDirC6b : Dir := .mk [⟨"n.py", some exBodyC6b⟩] .nil

/-- Tree for the parse-failure example: one invalid and one valid file. -/
def exDirC7 : Dir :=
  .mk [⟨"bad.py", none⟩, ⟨"good.py", some [.imp ["os"]]⟩] .nil

/-! ### Virtual-environment pruning (C8) -/
/-- Whether a directory directly contains a file with the given name. -/
def hasFile (d : Dir) (n : String) : Bool :=
  d.files.any (fun f => f.name = n)

/-- The names of the subdirectories of a directory. -/
def subNames : SubDirs → List String
  | .nil => []
  | .cons n _ rest => n :: subNames rest

/-- Look up a subdirectory by name (first match). -/
def findSub : SubDirs → String → Option Dir
  | .nil, _ => none
  | .cons n d rest, k => if n = k then some d else findSub rest k

/-- Navigate a relative directory path inside the tree. -/
def dirAt : Dir → List String → Option Dir
  | d, [] => some d
  | d, n :: rest =>
      match findSub d.subs n with
      | none => none
      | some d2 => dirAt d2 rest

mutual

/-- Sibling directory names are distinct everywhere in the tree (true of
every real file system; the model itself would allow duplicates). -/
def dirWF : Dir → Bool
  | .mk _ subs => decide (subNames subs).Nodup && subsWF subs

/-- Well-formedness of a subdirectory list. -/
def subsWF : SubDirs → Bool
  | .nil => true
  | .cons _ d rest => dirWF d && subsWF rest

end

/-- The venv directory of the C8 example: carries the marker and a valid
source file. -/
def exVenvDir : Dir := .mk [⟨"pyvenv.cfg", none⟩, ⟨"x.py", some []⟩] .nil

/-- The C8 example project: one root module plus a venv subtree. -/
def exDirC8 : Dir := .mk [⟨"main.py", some []⟩] (.cons "venv" exVenvDir .nil)

/-! ### Tarjan: basic state lemmas -/
/-- Adjacency mappings as the scanner builds them. -/
abbrev Graph := List (String × List String)

/-! ### Tarjan: stack discipline and component disjointness (C9) -/
/-- Evolution relation of the traversal state: indices only become more
defined, the stack only grows on top of the old one, and components are
only appended. -/
def TEvol (st st' : TState) : Prop :=
  (∀ x, (st.indices x).isSome = true → (st'.indices x).isSome = true) ∧
  (∃ new, st'.stack = new ++ st.stack) ∧
  (∃ added, st'.sccs = st.sccs ++ added)

/-- The stack discipline invariant: the recorded components and the stack
hold pairwise-distinct nodes, every one of them carries an index, and
`onstack` is exactly the membership set of the stack. -/
def TInv (st : TState) : Prop :=
  (st.sccs.flatten ++ st.stack).Nodup ∧
  (∀ x, x ∈ st.sccs.flatten ++ st.stack → (st.indices x).isSome = true) ∧
  (∀ x, x ∈ st.onstack ↔ x ∈ st.stack)

/-! ### Tarjan: fuel adequacy and missing keys (C10) -/
/-- The nodes of the graph not yet carrying a discovery index. -/
def unvisCount (g : Graph) (st : TState) : Nat :=
  ((nodesOf g).filter (fun x => (st.indices x).isNone)).length

/-- Successor targets mentioned in the mapping but not present as keys. -/
def missingTargets (g : Graph) : List String :=
  ((g.map Prod.snd).flatten.filter (fun w => !((g.map Prod.fst).contains w))).dedup

/-- The mapping extended with one explicit empty-successor binding per
missing target: the completion the claim says the algorithm implicitly
works on. -/
def completedGraph (g : Graph) : Graph :=
  g ++ (missingTargets g).map (fun w => (w, ([] : List String)))

/-! ### Tarjan: full correctness (C1) -/
/-- One edge of the adjacency mapping. -/
def Edge (g : Graph) (a b : String) : Prop := b ∈ getSuccs g a

/-- Reachability along edges. -/
def Reach (g : Graph) : String → String → Prop := Relation.ReflTransGen (Edge g)

/-- Mutual reachability: being in one strongly connected component. -/
def SCCrel (g : Graph) (x y : String) : Prop := Reach g x y ∧ Reach g y x

/-- A node the traversal has already indexed. -/
def marked (st : TState) (x : String) : Prop := (st.indices x).isSome = true

/-- A node the traversal has not yet indexed. -/
def freshIn (st : TState) (x : String) : Prop := st.indices x = none

/-- The discovery index of a marked node. -/
def idx (st : TState) (x : String) : Nat := (st.indices x).getD 0

/-- The current low-link of a node. -/
def low (st : TState) (x : String) : Nat := (st.lowlink x).getD 0

/-- The full execution invariant of the algorithm, relating the traversal
state to the reachability structure of the graph: distinct decreasing
indices down the stack, stack nodes reach everything above themselves,
every stack node's low-link is witnessed by a reachable stack node, popped
nodes have their whole component popped, and every recorded component is
exactly one strongly connected component with at least two members. -/
structure SInv (g : Graph) (st : TState) : Prop where
  tinv : TInv st
  idx_lt : ∀ x, marked st x → idx st x < st.index
  idx_inj : ∀ x y, marked st x → marked st y → idx st x = idx st y → x = y
  sorted : st.stack.Pairwise (fun a b => idx st b < idx st a)
  reach_up : ∀ x ∈ st.stack, ∀ y ∈ st.stack, idx st x ≤ idx st y → Reach g x y
  low_le : ∀ x ∈ st.stack, low st x ≤ idx st x
  witness : ∀ x ∈ st.stack, ∃ z ∈ st.stack, idx st z = low st x ∧ Reach g x z
  done_closed : ∀ x, marked st x → x ∉ st.stack → ∀ y, SCCrel g x y →
    marked st y ∧ y ∉ st.stack
  covered : ∀ x, marked st x → x ∉ st.stack → ∀ y, y ≠ x → SCCrel g x y →
    ∃ c ∈ st.sccs, x ∈ c ∧ y ∈ c
  sccs_good : ∀ c ∈ st.sccs, 2 ≤ c.length ∧ ∀ x ∈ c, ∀ y, (SCCrel g x y ↔ y ∈ c)

/-- The low-link update `lowlink[v] = min(...)` performed by both branches
of the successor loop. -/
def setLowV (st2 : TState) (v : String) (m : Nat) : TState :=
  { st2 with lowlink := fun x => if x = v then some m else st2.lowlink x }

/-- The postcondition of one complete inner `dfs` call on a fresh node
`v`: the invariant is maintained, already-indexed nodes keep their index
and low-link, the stack only gains fresh nodes, `v` receives the entry
index, newly indexed nodes are exactly reachable from `v` and have all
their successors indexed, any edge from a newly indexed node back into the
old stack bounds `v`'s low-link, and either `v`'s component was closed
(stack restored) or `v` stays on the stack with every new stack node still
open toward `v`'s low-link. -/
structure DfsPost (g : Graph) (st st3 : TState) (v : String) : Prop where
  sinv : SInv g st3
  pres_idx : ∀ x, marked st x → st3.indices x = st.indices x
  pres_low : ∀ x, marked st x → st3.lowlink x = st.lowlink x
  mono : ∀ x, marked st x → marked st3 x
  counter_gt : st.index < st3.index
  stack_suffix : ∃ new, st3.stack = new ++ st.stack ∧ ∀ x ∈ new, freshIn st x
  marked_v : marked st3 v
  idx_v : idx st3 v = st.index
  new_idx_ge : ∀ x, freshIn st x → marked st3 x → st.index ≤ idx st3 x
  reach_v : ∀ x, freshIn st x → marked st3 x → Reach g v x
  succ_marked : ∀ x, freshIn st x → marked st3 x → ∀ w ∈ getSuccs g x, marked st3 w
  back_low : ∀ b ∈ st.stack,
    (∃ a, freshIn st a ∧ marked st3 a ∧ b ∈ getSuccs g a) → low st3 v ≤ idx st b
  dichotomy :
    (st3.stack = st.stack ∧ v ∉ st3.stack ∧ low st3 v = idx st3 v) ∨
    (v ∈ st3.stack ∧
      ∀ x, freshIn st x → x ∈ st3.stack → low st3 v ≤ low st3 x ∧ low st3 x < idx st3 x)

/-- The inner `dfs` at a given fuel satisfies its postcondition whenever
called on a fresh node with sufficient fuel from an invariant state whose
whole stack reaches the node. -/
def DfsMaster (g : Graph) (fuel : Nat) : Prop :=
  ∀ (v : String) (st : TState),
    v ∈ nodesOf g → freshIn st v → unvisCount g st ≤ fuel →
    SInv g st → (∀ x ∈ st.stack, Reach g x v) →
    DfsPost g st (dfsT g fuel v st) v

/-- The invariant of the successor loop of the inner `dfs` on `v`,
relating the current loop state `st2` to the state `st` at entry of the
call (before `v` was pushed). -/
structure LoopInv (g : Graph) (st : TState) (v : String) (st2 : TState) : Prop where
  sinv : SInv g st2
  pres_idx : ∀ x, marked st x → st2.indices x = st.indices x
  pres_low : ∀ x, marked st x → st2.lowlink x = st.lowlink x
  mono : ∀ x, marked st x → marked st2 x
  counter_gt : st.index < st2.index
  stack_form : ∃ rem, st2.stack = rem ++ v :: st.stack ∧ ∀ x ∈ rem, freshIn st x ∧ x ≠ v
  marked_v : marked st2 v
  idx_v : idx st2 v = st.index
  new_idx_ge : ∀ x, freshIn st x → marked st2 x → st.index ≤ idx st2 x
  reach_v : ∀ x, freshIn st x → marked st2 x → Reach g v x
  succ_closed : ∀ x, freshIn st x → marked st2 x → x ≠ v → ∀ w ∈ getSuccs g x, marked st2 w
  lr : ∀ x ∈ st2.stack, Reach g x v
  fin_above : ∀ x, freshIn st x → x ∈ st2.stack → x ≠ v →
    low st2 x < idx st2 x ∧ low st2 v ≤ low st2 x

/-- The successor loop of the inner `dfs` as a named fold. -/
def loopFold (g : Graph) (fuel : Nat) (v : String) (ws : List String) (st2 : TState) :
    TState :=
  ws.foldl (fun s w => succStep (dfsT g fuel) v w s) st2

/-- The state after the component pop of `closeNode`, with the popped
component and remaining stack explicit. -/
def closedState (stF : TState) (comp rest : List String) : TState :=
  { stF with
    stack := rest
    onstack := stF.onstack.filter (fun x => decide (x ∉ comp))
    sccs := if comp.length > 1 then stF.sccs ++ [comp] else stF.sccs }

/-! ### The classifier: partition law and classification rule -/
theorem categorizeLoop_go (lp am : List String) (ts : List String)
    (acc : List String × List String) :
    ts.foldl
      (fun acc t =>
        if isInternal lp am t then (acc.1 ++ [t], acc.2) else (acc.1, acc.2 ++ [t]))
      acc
      = (acc.1 ++ ts.filter (fun t => isInternal lp am t),
         acc.2 ++ ts.filter (fun t => !isInternal lp am t)) := by
  induction ts generalizing acc with
  | nil => simp
  | cons t rest ih =>
      by_cases h : isInternal lp am t
      · simp [List.foldl_cons, List.filter_cons, h, ih]
      · simp [List.foldl_cons, List.filter_cons, h, ih]

theorem categorizeLoop_eq (lp am : List String) (ts : List String) :
    categorizeLoop lp am ts
      = (ts.filter (fun t => isInternal lp am t),
         ts.filter (fun t => !isInternal lp am t)) := by
  simpa using categorizeLoop_go lp am ts ([], [])

/-- Membership in a classified record pins the record down to the filter
form of `_categorize_imports`. -/
theorem mem_categorizeState (lp am : List String) (mi : List (String × ModData))
    (fqn : String) (data : ModData)
    (h : (fqn, data) ∈ categorizeState lp am mi) :
    ∃ d0 : ModData, (fqn, d0) ∈ mi ∧
      data.path = d0.path ∧
      data.imports = d0.imports ∧
      data.internal_imports = d0.imports.filter (fun t => isInternal lp am t) ∧
      data.external_imports = d0.imports.filter (fun t => !isInternal lp am t) := by
  unfold categorizeState at h
  obtain ⟨p, hp, heq⟩ := List.mem_map.mp h
  obtain ⟨h1, h2⟩ := Prod.mk.injEq .. ▸ heq
  refine ⟨p.2, ?_, ?_, ?_, ?_, ?_⟩
  · exact h1 ▸ (by simpa using hp)
  all_goals
    simp [← h2, categorizeLoop_eq]

/-- C2: for every module record after classification, the internal and the
external partition together hold exactly the multiset of the raw import
list, and each partition preserves the raw relative order (it is a
sublist of the raw list). -/
theorem classifier_partition (st : ScanState) (root : Option Dir) (fqn : String)
    (data : ModData) (h : (fqn, data) ∈ (scan st root).module_info) :
    (data.internal_imports ++ data.external_imports).Perm data.imports ∧
      data.internal_imports.Sublist data.imports ∧
      data.external_imports.Sublist data.imports := by
  cases root with
  | none => simp [scan] at h
  | some d =>
      simp only [scan] at h
      obtain ⟨d0, -, -, him, hint, hext⟩ := mem_categorizeState _ _ _ _ _ h
      rw [him, hint, hext]
      exact ⟨List.filter_append_perm _ _, List.filter_sublist _, List.filter_sublist _⟩

theorem classifier_partition_witness :
    (("a", ⟨["a.py"], ["os"], [], ["os"]⟩) ∈
        (scan ⟨[], [], []⟩ (some exDirC2)).module_info) ∧
      (((⟨["a.py"], ["os"], [], ["os"]⟩ : ModData).internal_imports ++
          (⟨["a.py"], ["os"], [], ["os"]⟩ : ModData).external_imports).Perm
        (⟨["a.py"], ["os"], [], ["os"]⟩ : ModData).imports ∧
        (⟨["a.py"], ["os"], [], ["os"]⟩ : ModData).internal_imports.Sublist
          (⟨["a.py"], ["os"], [], ["os"]⟩ : ModData).imports ∧
        (⟨["a.py"], ["os"], [], ["os"]⟩ : ModData).external_imports.Sublist
          (⟨["a.py"], ["os"], [], ["os"]⟩ : ModData).imports) :=
  ⟨by decide, classifier_partition ⟨[], [], []⟩ (some exDirC2) "a" _ (by decide)⟩

/-- The classification test, written with plain membership. -/
theorem isInternal_iff (lp am : List String) (t : String) :
    isInternal lp am t = true ↔ (t ∈ am ∨ (splitDot t).headD "" ∈ lp) := by
  simp [isInternal]

/-- C3: a raw import target is placed among the internal imports exactly
when it is a catalogued local module or its first dotted segment is a
catalogued local package; otherwise it is placed among the external
imports. -/
theorem classifier_rule (st : ScanState) (d : Dir) (fqn : String) (data : ModData)
    (t : String) (hmem : (fqn, data) ∈ (scan st (some d)).module_info)
    (ht : t ∈ data.imports) :
    (t ∈ data.internal_imports ↔
      (t ∈ (scan st (some d)).all_local_modules ∨
        (splitDot t).headD "" ∈ (scan st (some d)).local_packages)) ∧
    (t ∈ data.external_imports ↔
      ¬ (t ∈ (scan st (some d)).all_local_modules ∨
        (splitDot t).headD "" ∈ (scan st (some d)).local_packages)) := by
  simp only [scan] at hmem ⊢
  obtain ⟨d0, -, -, him, hint, hext⟩ := mem_categorizeState _ _ _ _ _ hmem
  rw [him] at ht
  rw [hint, hext]
  constructor
  · rw [List.mem_filter]
    rw [isInternal_iff]
    tauto
  · rw [List.mem_filter]
    simp only [Bool.not_eq_eq_eq_not, Bool.not_true, ← Bool.not_eq_true, isInternal_iff]
    tauto

theorem classifier_rule_witness :
    ((("a", ⟨["a.py"], ["b"], ["b"], []⟩) ∈
        (scan ⟨[], [], []⟩ (some exDirC3)).module_info) ∧
      ("b" ∈ (⟨["a.py"], ["b"], ["b"], []⟩ : ModData).imports)) ∧
      (("b" ∈ (⟨["a.py"], ["b"], ["b"], []⟩ : ModData).internal_imports ↔
        ("b" ∈ (scan ⟨[], [], []⟩ (some exDirC3)).all_local_modules ∨
          (splitDot "b").headD "" ∈ (scan ⟨[], [], []⟩ (some exDirC3)).local_packages)) ∧
        ("b" ∈ (⟨["a.py"], ["b"], ["b"], []⟩ : ModData).external_imports ↔
          ¬ ("b" ∈ (scan ⟨[], [], []⟩ (some exDirC3)).all_local_modules ∨
            (splitDot "b").headD "" ∈ (scan ⟨[], [], []⟩ (some exDirC3)).local_packages))) :=
  ⟨⟨by decide, by decide⟩,
    classifier_rule ⟨[], [], []⟩ exDirC3 "a" _ "b" (by decide) (by decide)⟩

theorem iterate_dropLast_eq_take {α : Type} (k : Nat) (l : List α) :
    (List.dropLast)^[k] l = l.take (l.length - k) := by
  induction k generalizing l with
  | zero => simp
  | succ k ih =>
      rw [Function.iterate_succ_apply, ih, List.length_dropLast, List.dropLast_eq_take,
        List.take_take]
      congr 1
      rw [Nat.min_eq_left (by omega)]
      omega

/-- C4: `resolve_from_import` computes exactly the prefix-and-clause result
the spec describes (for any genuine module clause: the source's `if module:`
also rejects an empty clause string), and the three documented examples
hold. -/
theorem resolve_from_import_ok (fqn : String) (level : Nat) (module : Option String)
    (h : module ≠ some "") :
    resolve_from_import fqn level module = resolveRelativeSpec fqn level module ∧
      resolve_from_import "a.b.c" 1 (some "d") = "a.b.d" ∧
      resolve_from_import "a.b.c" 2 (some "d") = "a.d" ∧
      resolve_from_import "a.b.c" 0 (some "x.y") = "a.b.x.y" := by
  refine ⟨?_, by decide, by decide, by decide⟩
  have hpkg : ∀ pkg : List String,
      (if level ≠ 0 then
        if level > 1 then pkg.take (pkg.length - (level - 1)) else pkg
      else pkg)
        = (if level > 1 then (List.dropLast)^[level - 1] pkg else pkg) := by
    intro pkg
    rw [iterate_dropLast_eq_take]
    rcases level with _ | _ | n <;> simp
  simp only [resolve_from_import, resolveRelativeSpec, hpkg]
  cases module with
  | none => rfl
  | some m =>
      have hm : m ≠ "" := fun hm => h (by rw [hm])
      simp [hm]

theorem resolve_from_import_ok_witness :
    ((some "d" : Option String) ≠ some "") ∧
      (resolve_from_import "x.y.z" 1 (some "d") = resolveRelativeSpec "x.y.z" 1 (some "d") ∧
        resolve_from_import "a.b.c" 1 (some "d") = "a.b.d" ∧
        resolve_from_import "a.b.c" 2 (some "d") = "a.d" ∧
        resolve_from_import "a.b.c" 0 (some "x.y") = "a.b.x.y") :=
  ⟨by decide, resolve_from_import_ok "x.y.z" 1 (some "d") (by decide)⟩

/-! ### Invalid project root (C5) -/
/-- C5 amended: on a missing or non-directory project root, `scan` returns
after clearing only `module_info`, so the record collection and the derived
graph are empty, while `local_packages` and `all_local_modules` keep
whatever a previous scan stored (they are cleared only inside
`_find_local_packages_and_modules`, which runs only for a valid root). -/
theorem scan_invalid_root (st : ScanState) :
    (scan st none).module_info = [] ∧
      build_graph (scan st none) = [] ∧
      (scan st none).local_packages = st.local_packages ∧
      (scan st none).all_local_modules = st.all_local_modules := by
  simp [scan, build_graph]

/-- C5 counterexample: after scanning a valid project (which catalogues
package `p`) and then scanning with an invalid root, `local_packages` is
not empty — the invalid-root scan does not clear the catalog. -/
theorem scan_invalid_root_cex :
    (scan (scan ⟨[], [], []⟩ (some exDirC5)) none).local_packages ≠ [] := by
  decide

/-! ### From walked files to records: lookup lemmas -/
theorem mem_dictInsert (m : List (String × ModData)) (k0 : String) (v0 : ModData)
    (k : String) (v : ModData) (h : (k, v) ∈ dictInsert m k0 v0) :
    (k, v) ∈ m ∨ (k, v) = (k0, v0) := by
  unfold dictInsert at h
  split at h
  · obtain ⟨p, hp, he⟩ := List.mem_map.mp h
    by_cases hk : p.1 = k0
    · right
      rw [if_pos hk] at he
      exact he.symm
    · left
      rw [if_neg hk] at he
      exact he ▸ hp
  · rcases List.mem_append.mp h with h | h
    · exact .inl h
    · right
      simpa using h

theorem mem_scanFiles_go (ts : List FileTriple) (acc : List (String × ModData))
    (k : String) (v : ModData)
    (h : (k, v) ∈ ts.foldl (fun mi t => dictInsert mi (fileRecord t).1 (fileRecord t).2) acc) :
    (k, v) ∈ acc ∨ ∃ t ∈ ts, (k, v) = fileRecord t := by
  induction ts generalizing acc with
  | nil => exact .inl (by simpa using h)
  | cons t rest ih =>
      simp only [List.foldl_cons] at h
      rcases ih _ h with h2 | ⟨t2, ht2, he⟩
      · rcases mem_dictInsert _ _ _ _ _ h2 with h3 | h3
        · exact .inl h3
        · exact .inr ⟨t, by simp, h3⟩
      · exact .inr ⟨t2, by simp [ht2], he⟩

theorem mem_scanFiles (ts : List FileTriple) (k : String) (v : ModData)
    (h : (k, v) ∈ scanFiles ts) : ∃ t ∈ ts, (k, v) = fileRecord t := by
  rcases mem_scanFiles_go ts [] k v h with h2 | h2
  · simp at h2
  · exact h2

theorem scanFiles_go_eq (ts : List FileTriple) (acc : List (String × ModData))
    (hdisj : ∀ t ∈ ts, ∀ p ∈ acc, p.1 ≠ (fileRecord t).1)
    (hnd : (ts.map (fun t => (fileRecord t).1)).Nodup) :
    ts.foldl (fun mi t => dictInsert mi (fileRecord t).1 (fileRecord t).2) acc
      = acc ++ ts.map fileRecord := by
  induction ts generalizing acc with
  | nil => simp
  | cons t rest ih =>
      simp only [List.foldl_cons]
      have hins : dictInsert acc (fileRecord t).1 (fileRecord t).2 = acc ++ [fileRecord t] := by
        unfold dictInsert
        rw [if_neg]
        simp only [List.any_eq_true, decide_eq_true_eq, not_exists, not_and]
        intro p hp
        exact hdisj t (by simp) p hp
      rw [hins, ih]
      · simp
      · intro t2 ht2 p hp
        rcases List.mem_append.mp hp with hacc | hone
        · exact hdisj t2 (by simp [ht2]) p hacc
        · have hp2 : p = fileRecord t := by simpa using hone
          rw [hp2]
          have hhead := (List.nodup_cons.mp hnd).1
          intro he
          apply hhead
          show (fileRecord t).1 ∈ List.map (fun t => (fileRecord t).1) rest
          rw [he]
          exact List.mem_map_of_mem (fun t => (fileRecord t).1) ht2
      · exact (List.nodup_cons.mp hnd).2

theorem scanFiles_eq_map (ts : List FileTriple)
    (hnd : (ts.map (fun t => (fileRecord t).1)).Nodup) :
    scanFiles ts = ts.map fileRecord := by
  simpa using scanFiles_go_eq ts [] (by simp) hnd

theorem lookup_map_fileRecord (ts : List FileTriple) (t : FileTriple)
    (hnd : (ts.map (fun t => (fileRecord t).1)).Nodup) (ht : t ∈ ts) :
    (ts.map fileRecord).lookup (fileRecord t).1 = some (fileRecord t).2 := by
  induction ts with
  | nil => simp at ht
  | cons t0 rest ih =>
      rcases List.mem_cons.mp ht with rfl | h
      · simp [List.lookup, fileRecord]
      · have hne : ((fileRecord t).1 == (fileRecord t0).1) = false := by
          have hhead := (List.nodup_cons.mp hnd).1
          simp only [beq_eq_false_iff_ne, ne_eq]
          intro he
          apply hhead
          show (fileRecord t0).1 ∈ List.map (fun t => (fileRecord t).1) rest
          rw [← he]
          exact List.mem_map_of_mem (fun t => (fileRecord t).1) h
        have hne2 : ((fileRecord t).1 == fqnOf t0.1 t0.2.1) = false := hne
        calc (List.map fileRecord (t0 :: rest)).lookup (fileRecord t).1
            = (List.map fileRecord rest).lookup (fileRecord t).1 := by
              simp only [List.map_cons, List.lookup]
              rw [hne2]
          _ = some (fileRecord t).2 := ih (List.nodup_cons.mp hnd).2 h

theorem categorizeState_lookup (lp am : List String) (mi : List (String × ModData))
    (k : String) :
    (categorizeState lp am mi).lookup k
      = (mi.lookup k).map (fun d0 =>
          { d0 with
            internal_imports := (categorizeLoop lp am d0.imports).1
            external_imports := (categorizeLoop lp am d0.imports).2 }) := by
  induction mi with
  | nil => simp [categorizeState]
  | cons p rest ih =>
      cases hkp : (k == p.1) with
      | true => simp [categorizeState, List.lookup, hkp]
      | false =>
          simp only [categorizeState, List.map_cons, List.lookup, hkp]
          exact ih

/-- The record `scan` produces for one visited file, in full. -/
theorem scan_lookup_record (st : ScanState) (d : Dir) (t : FileTriple)
    (hnd : (walkedFqns d).Nodup) (ht : t ∈ walkScan [] d) :
    (scan st (some d)).module_info.lookup (fqnOf t.1 t.2.1)
      = some
          ⟨t.1 ++ [t.2.1],
            (t.2.2).elim [] (collectImports (fqnOf t.1 t.2.1)),
            (categorizeLoop (surveyPkgs [] d) (surveyMods [] d)
              ((t.2.2).elim [] (collectImports (fqnOf t.1 t.2.1)))).1,
            (categorizeLoop (surveyPkgs [] d) (surveyMods [] d)
              ((t.2.2).elim [] (collectImports (fqnOf t.1 t.2.1)))).2⟩ := by
  have hnd2 : ((walkScan [] d).map (fun t => (fileRecord t).1)).Nodup := hnd
  simp only [scan]
  rw [categorizeState_lookup, scanFiles_eq_map _ hnd2]
  have : fqnOf t.1 t.2.1 = (fileRecord t).1 := rfl
  rw [this, lookup_map_fileRecord _ t hnd2 ht]
  rfl

/-! ### Raw import order (C6) and parse-failure resilience (C7) -/
theorem length_le_stmtListSize (l : List Stmt) : l.length ≤ stmtListSize l := by
  induction l with
  | nil => simp [stmtListSize]
  | cons s rest ih =>
      have h1 : 1 ≤ stmtSize s := by cases s <;> simp [stmtSize]
      simp only [List.length_cons, stmtListSize]
      omega

theorem walkBFSFuel_of_flat (l : List Stmt) (fuel : Nat)
    (hflat : ∀ s ∈ l, stmtChildren s = []) (hfuel : l.length ≤ fuel) :
    walkBFSFuel fuel l = l := by
  induction l generalizing fuel with
  | nil => cases fuel <;> rfl
  | cons s rest ih =>
      cases fuel with
      | zero => simp at hfuel
      | succ fuel =>
          rw [walkBFSFuel, hflat s (by simp), List.append_nil,
            ih fuel (fun s2 hs2 => hflat s2 (by simp [hs2])) (by simpa using hfuel)]

theorem walkBFS_of_flat (l : List Stmt) (hflat : ∀ s ∈ l, stmtChildren s = []) :
    walkBFS l = l :=
  walkBFSFuel_of_flat l _ hflat (length_le_stmtListSize l)

theorem srcEntriesList_of_flat (fqn : String) (l : List Stmt)
    (hflat : ∀ s ∈ l, stmtChildren s = []) :
    srcEntriesList fqn l = (l.map (impEntries fqn)).flatten := by
  induction l with
  | nil => rfl
  | cons s rest ih =>
      rw [srcEntriesList, ih (fun s2 hs2 => hflat s2 (by simp [hs2]))]
      simp only [List.map_cons, List.flatten_cons]
      congr 1
      cases s with
      | imp names => rfl
      | impFrom level module => rfl
      | compound body =>
          have hb := hflat (.compound body) (by simp)
          simp only [stmtChildren] at hb
          subst hb
          rfl

/-- C6 counterexample: `ast.walk` is breadth-first, so module `m` (whose
source text has `import a` nested inside a compound statement before the
top-level `import b`) records `["b", "a"]`, while source-text order is
`["a", "b"]`. -/
theorem scan_source_order_cex :
    ((scan ⟨[], [], []⟩ (some exDirC6)).module_info.lookup "m").map ModData.imports
        = some ["b", "a"] ∧
      srcEntriesList "m" exBodyC6 = ["a", "b"] ∧
      (["b", "a"] : List String) ≠ ["a", "b"] :=
  ⟨by decide, by decide, by decide⟩

/-- C6 amended: the raw import list holds one entry per named target of
each plain import statement and one resolved entry per from-import clause,
duplicates kept, in the order of a breadth-first walk of the syntax tree
(statements at smaller nesting depth first); for a file whose statements
are all at the top level this is exactly source-text order. -/
theorem scan_raw_imports (st : ScanState) (d : Dir) (dirp : List String)
    (name : String) (body : List Stmt) (hnd : (walkedFqns d).Nodup)
    (ht : (dirp, name, some body) ∈ walkScan [] d) :
    ∃ data : ModData,
      (scan st (some d)).module_info.lookup (fqnOf dirp name) = some data ∧
        data.imports = ((walkBFS body).map (impEntries (fqnOf dirp name))).flatten ∧
        ((∀ s ∈ body, stmtChildren s = []) →
          data.imports = srcEntriesList (fqnOf dirp name) body) := by
  refine ⟨_, scan_lookup_record st d (dirp, name, some body) hnd ht, rfl, ?_⟩
  intro hflat
  show collectImports (fqnOf dirp name) body = _
  rw [collectImports, walkBFS_of_flat body hflat, srcEntriesList_of_flat _ body hflat]

theorem scan_raw_imports_witness :
    ((walkedFqns exDirC6b).Nodup ∧
        (([], "n.py", some exBodyC6b) : FileTriple) ∈ walkScan [] exDirC6b) ∧
      (∃ data : ModData,
        (scan ⟨[], [], []⟩ (some exDirC6b)).module_info.lookup (fqnOf [] "n.py")
            = some data ∧
          data.imports = ((walkBFS exBodyC6b).map (impEntries (fqnOf [] "n.py"))).flatten ∧
          ((∀ s ∈ exBodyC6b, stmtChildren s = []) →
            data.imports = srcEntriesList (fqnOf [] "n.py") exBodyC6b)) :=
  ⟨⟨by decide, List.Mem.head _⟩,
    scan_raw_imports ⟨[], [], []⟩ exDirC6b [] "n.py" exBodyC6b (by decide) (List.Mem.head _)⟩

/-- C7: an unreadable or unparsable file still yields a module record with
empty import data and the scan continues with the remaining files;
concretely, a tree with one invalid and one valid file yields exactly two
records, one with empty imports and one fully populated. -/
theorem parse_failure_resilience (st : ScanState) (d : Dir) (dirp : List String)
    (name : String) (hnd : (walkedFqns d).Nodup)
    (ht : ((dirp, name, none) : FileTriple) ∈ walkScan [] d) :
    ((scan st (some d)).module_info.lookup (fqnOf dirp name)
        = some ⟨dirp ++ [name], [], [], []⟩) ∧
      (scan ⟨[], [], []⟩ (some exDirC7)).module_info
        = [("bad", ⟨["bad.py"], [], [], []⟩),
           ("good", ⟨["good.py"], ["os"], [], ["os"]⟩)] :=
  ⟨scan_lookup_record st d (dirp, name, none) hnd ht, by decide⟩

theorem parse_failure_resilience_witness :
    ((walkedFqns exDirC7).Nodup ∧
        (([], "bad.py", none) : FileTriple) ∈ walkScan [] exDirC7) ∧
      (((scan ⟨[], [], []⟩ (some exDirC7)).module_info.lookup (fqnOf [] "bad.py")
          = some ⟨["bad.py"], [], [], []⟩) ∧
        (scan ⟨[], [], []⟩ (some exDirC7)).module_info
          = [("bad", ⟨["bad.py"], [], [], []⟩),
             ("good", ⟨["good.py"], ["os"], [], ["os"]⟩)]) :=
  ⟨⟨by decide, List.Mem.head _⟩,
    parse_failure_resilience ⟨[], [], []⟩ exDirC7 [] "bad.py" (by decide) (List.Mem.head _)⟩

mutual

theorem walkScan_path : ∀ (rel : List String) (d : Dir) (t : FileTriple),
    t ∈ walkScan rel d → ∃ r, t.1 = rel ++ r
  | rel, .mk files subs, t, ht => by
      rw [walkScan] at ht
      split at ht
      · simp at ht
      · rcases List.mem_append.mp ht with h | h
        · obtain ⟨f, hf, he⟩ := List.mem_map.mp h
          exact ⟨[], by rw [← he]; simp⟩
        · exact walkScanSubs_path rel subs t h

theorem walkScanSubs_path : ∀ (rel : List String) (subs : SubDirs) (t : FileTriple),
    t ∈ walkScanSubs rel subs → ∃ r, t.1 = rel ++ r
  | rel, .nil, t, ht => by simp [walkScanSubs] at ht
  | rel, .cons n d rest, t, ht => by
      rw [walkScanSubs] at ht
      rcases List.mem_append.mp ht with h | h
      · obtain ⟨r, hr⟩ := walkScan_path (rel ++ [n]) d t h
        exact ⟨n :: r, by simp [hr]⟩
      · exact walkScanSubs_path rel rest t h

end

/-- Every file visited below a subdirectory list lies under one of the
listed subdirectory names. -/
theorem walkScanSubs_split : ∀ (rel : List String) (subs : SubDirs) (t : FileTriple),
    t ∈ walkScanSubs rel subs → ∃ m r, m ∈ subNames subs ∧ t.1 = rel ++ m :: r
  | rel, .nil, t, ht => by simp [walkScanSubs] at ht
  | rel, .cons m dm rest, t, ht => by
      rw [walkScanSubs] at ht
      rcases List.mem_append.mp ht with h | h
      · obtain ⟨r, hr⟩ := walkScan_path (rel ++ [m]) dm t h
        exact ⟨m, r, by simp [subNames], by simp [hr]⟩
      · obtain ⟨m2, r, hm, hr⟩ := walkScanSubs_split rel rest t h
        exact ⟨m2, r, by simp [subNames, hm], hr⟩

mutual

theorem walkScan_marker : ∀ (rel p : List String) (d sub : Dir),
    dirWF d = true → dirAt d p = some sub → hasFile sub "pyvenv.cfg" = true →
    ∀ t ∈ walkScan rel d, ¬ ∃ r, t.1 = (rel ++ p) ++ r
  | rel, [], d, sub, hwf, hat, hmark, t, ht => by
      have hds : d = sub := by simpa [dirAt] using hat
      subst hds
      cases d with
      | mk files subs =>
          rw [walkScan] at ht
          split at ht
          · simp at ht
          · rename_i hcond
            exact absurd (show (files.any fun f => f.name = "pyvenv.cfg") = true from hmark)
              (by simpa using hcond)
  | rel, n :: p, .mk files subs, sub, hwf, hat, hmark, t, ht => by
      rw [dirAt] at hat
      simp only [Dir.subs] at hat
      cases hfs : findSub subs n with
      | none => rw [hfs] at hat; simp at hat
      | some d2 =>
          rw [hfs] at hat
          have hwf2 : (subNames subs).Nodup ∧ subsWF subs = true := by
            rw [dirWF] at hwf
            simpa [Bool.and_eq_true] using hwf
          rw [walkScan] at ht
          split at ht
          · simp at ht
          · rcases List.mem_append.mp ht with hf | hsub
            · obtain ⟨f, hfm, hfe⟩ := List.mem_map.mp hf
              rintro ⟨r, hr⟩
              rw [← hfe] at hr
              have hlen := congrArg List.length hr
              simp [List.length_append] at hlen
            · exact walkScanSubs_marker rel p subs n d2 sub hwf2.2 hwf2.1 hfs hat hmark t hsub

theorem walkScanSubs_marker : ∀ (rel p : List String) (subs : SubDirs) (n : String)
    (d2 sub : Dir),
    subsWF subs = true → (subNames subs).Nodup → findSub subs n = some d2 →
    dirAt d2 p = some sub → hasFile sub "pyvenv.cfg" = true →
    ∀ t ∈ walkScanSubs rel subs, ¬ ∃ r, t.1 = (rel ++ n :: p) ++ r
  | rel, p, .nil, n, d2, sub, hswf, hnd, hfind, hat, hmark, t, ht => by
      simp [findSub] at hfind
  | rel, p, .cons m dm rest, n, d2, sub, hswf, hnd, hfind, hat, hmark, t, ht => by
      rw [walkScanSubs] at ht
      have hswf2 : dirWF dm = true ∧ subsWF rest = true := by
        rw [subsWF] at hswf
        simpa [Bool.and_eq_true] using hswf
      rw [findSub] at hfind
      by_cases hmn : m = n
      · subst hmn
        rw [if_pos rfl] at hfind
        obtain rfl : dm = d2 := Option.some.inj hfind
        rcases List.mem_append.mp ht with h | h
        · have hno := walkScan_marker (rel ++ [m]) p dm sub hswf2.1 hat hmark t h
          rintro ⟨r, hr⟩
          refine hno ⟨r, ?_⟩
          rw [hr]
          simp
        · obtain ⟨m2, r2, hm2, hr2⟩ := walkScanSubs_split rel rest t h
          rintro ⟨r, hr⟩
          rw [hr2] at hr
          rw [show (rel ++ m :: p) ++ r = rel ++ m :: (p ++ r) by simp] at hr
          have hcons := List.append_cancel_left hr
          have hm2m : m2 = m := (List.cons.injEq .. ▸ hcons).1
          have hnotin := (List.nodup_cons.mp (by simpa [subNames] using hnd)).1
          exact hnotin (hm2m ▸ hm2)
      · rw [if_neg hmn] at hfind
        rcases List.mem_append.mp ht with h | h
        · obtain ⟨r3, hr3⟩ := walkScan_path (rel ++ [m]) dm t h
          rintro ⟨r, hr⟩
          rw [hr3] at hr
          rw [show (rel ++ [m]) ++ r3 = rel ++ m :: r3 by simp] at hr
          rw [show (rel ++ n :: p) ++ r = rel ++ n :: (p ++ r) by simp] at hr
          have hcons := List.append_cancel_left hr
          exact hmn (List.cons.injEq .. ▸ hcons).1
        · exact walkScanSubs_marker rel p rest n d2 sub hswf2.2
            (List.nodup_cons.mp (by simpa [subNames] using hnd)).2 hfind hat hmark t h

end

/-- C8: a directory carrying the venv marker file contributes no module
record at all: no record's file directory lies at or below it, even when
the files there are valid source files. -/
theorem venv_pruning (st : ScanState) (d : Dir) (p : List String) (sub : Dir)
    (hwf : dirWF d = true)
    (hat : dirAt d p = some sub) (hmark : hasFile sub "pyvenv.cfg" = true)
    (fqn : String) (data : ModData)
    (hmem : (fqn, data) ∈ (scan st (some d)).module_info) :
    ¬ ∃ r, data.path.dropLast = p ++ r := by
  simp only [scan] at hmem
  obtain ⟨d0, hd0, hpath, -, -, -⟩ := mem_categorizeState _ _ _ _ _ hmem
  obtain ⟨t, htw, hrec⟩ := mem_scanFiles _ _ _ hd0
  have hd0path : d0.path = t.1 ++ [t.2.1] := by
    have := congrArg (fun q => q.2.path) hrec
    simpa [fileRecord] using this
  have hdrop : data.path.dropLast = t.1 := by
    rw [hpath, hd0path]
    simp
  rw [hdrop]
  have := walkScan_marker [] p d sub hwf hat hmark t htw
  simpa using this

theorem venv_pruning_witness :
    (dirWF exDirC8 = true ∧ dirAt exDirC8 ["venv"] = some exVenvDir ∧
        hasFile exVenvDir "pyvenv.cfg" = true ∧
        ("main", (⟨["main.py"], [], [], []⟩ : ModData)) ∈
          (scan ⟨[], [], []⟩ (some exDirC8)).module_info) ∧
      ¬ ∃ r, (⟨["main.py"], [], [], []⟩ : ModData).path.dropLast = ["venv"] ++ r :=
  ⟨⟨by decide, rfl, by decide, by decide⟩,
    venv_pruning ⟨[], [], []⟩ exDirC8 ["venv"] exVenvDir (by decide) rfl (by decide)
      "main" _ (by decide)⟩

theorem closeNode_indices (v : String) (st : TState) :
    (closeNode v st).indices = st.indices := by
  unfold closeNode
  split <;> rfl

theorem closeNode_lowlink (v : String) (st : TState) :
    (closeNode v st).lowlink = st.lowlink := by
  unfold closeNode
  split <;> rfl

theorem succStep_of_some (recd : String → TState → TState) (v w : String) (st : TState)
    (h : (st.indices w).isNone = false) :
    (succStep recd v w st).indices = st.indices ∧
      (succStep recd v w st).stack = st.stack ∧
      (succStep recd v w st).onstack = st.onstack ∧
      (succStep recd v w st).sccs = st.sccs ∧
      (succStep recd v w st).index = st.index := by
  unfold succStep
  rw [if_neg (by simp [h])]
  split <;> exact ⟨rfl, rfl, rfl, rfl, rfl⟩

theorem succStep_of_none (recd : String → TState → TState) (v w : String) (st : TState)
    (h : (st.indices w).isNone = true) :
    (succStep recd v w st).indices = (recd w st).indices ∧
      (succStep recd v w st).stack = (recd w st).stack ∧
      (succStep recd v w st).onstack = (recd w st).onstack ∧
      (succStep recd v w st).sccs = (recd w st).sccs ∧
      (succStep recd v w st).index = (recd w st).index := by
  unfold succStep
  rw [if_pos h]
  exact ⟨rfl, rfl, rfl, rfl, rfl⟩

theorem foldl_preserve {α β : Type} (P : β → Prop) (f : β → α → β) (l : List α) (b : β)
    (hb : P b) (hf : ∀ b2 a, a ∈ l → P b2 → P (f b2 a)) : P (l.foldl f b) := by
  induction l generalizing b with
  | nil => exact hb
  | cons a rest ih =>
      exact ih (f b a) (hf b a (by simp) hb) (fun b2 a2 ha2 hb2 => hf b2 a2 (by simp [ha2]) hb2)

theorem dfsT_mono (g : Graph) :
    ∀ (fuel : Nat) (v : String) (st : TState) (x : String),
      (st.indices x).isSome = true → ((dfsT g fuel v st).indices x).isSome = true := by
  intro fuel
  induction fuel with
  | zero => exact fun v st x h => h
  | succ fuel ih =>
      intro v st x h
      show ((dfsGo g (dfsT g fuel) v st).indices x).isSome = true
      unfold dfsGo
      rw [closeNode_indices]
      refine foldl_preserve (fun st2 : TState => (st2.indices x).isSome = true) _ _ _ ?_ ?_
      · by_cases hx : x = v <;> simp [pushNode, hx, h]
      · intro st2 w hw h2
        by_cases hw2 : (st2.indices w).isNone = true
        · rw [(succStep_of_none (dfsT g fuel) v w st2 hw2).1]
          exact ih w st2 x h2
        · rw [(succStep_of_some (dfsT g fuel) v w st2 (by rwa [Bool.not_eq_true] at hw2)).1]
          exact h2

theorem dfsGo_congr (g g' : Graph) (recd : String → TState → TState)
    (hg : ∀ v, getSuccs g v = getSuccs g' v) (v : String) (st : TState) :
    dfsGo g recd v st = dfsGo g' recd v st := by
  unfold dfsGo
  rw [hg v]

theorem dfsT_congr (g g' : Graph) (hg : ∀ v, getSuccs g v = getSuccs g' v) :
    ∀ (fuel : Nat) (v : String) (st : TState), dfsT g fuel v st = dfsT g' fuel v st := by
  intro fuel
  induction fuel with
  | zero => intro v st; rfl
  | succ fuel ih =>
      intro v st
      have hfun : dfsT g fuel = dfsT g' fuel := funext fun v2 => funext fun st2 => ih v2 st2
      show dfsGo g (dfsT g fuel) v st = dfsGo g' (dfsT g' fuel) v st
      rw [hfun]
      exact dfsGo_congr g g' _ hg v st

theorem lookup_some_mem {β : Type} : ∀ (g : List (String × β)) (v : String) (ws : β),
    g.lookup v = some ws → (v, ws) ∈ g
  | [], v, ws, h => by simp at h
  | (k, w) :: rest, v, ws, h => by
      rw [List.lookup] at h
      cases hb : (v == k) with
      | true =>
          rw [hb] at h
          have hv : v = k := by simpa using hb
          have hw : w = ws := by simpa using h
          subst hv
          subst hw
          simp
      | false =>
          rw [hb] at h
          exact List.mem_cons_of_mem _ (lookup_some_mem rest v ws h)

theorem getSuccs_subset_nodesOf (g : Graph) (v w : String) (hw : w ∈ getSuccs g v) :
    w ∈ nodesOf g := by
  unfold getSuccs at hw
  cases hl : g.lookup v with
  | none => rw [hl] at hw; simp at hw
  | some ws =>
      rw [hl] at hw
      simp only [Option.getD_some] at hw
      have hmem := lookup_some_mem g v ws hl
      unfold nodesOf
      rw [List.mem_dedup]
      refine List.mem_append.mpr (.inr ?_)
      exact List.mem_flatten.mpr ⟨ws, List.mem_map_of_mem Prod.snd hmem, hw⟩

theorem key_mem_nodesOf (g : Graph) (p : String × List String) (hp : p ∈ g) :
    p.1 ∈ nodesOf g := by
  unfold nodesOf
  rw [List.mem_dedup]
  exact List.mem_append.mpr (.inl (List.mem_map_of_mem Prod.fst hp))

theorem lookup_of_mem_nodup : ∀ (g : Graph) (k : String) (ws : List String),
    (g.map Prod.fst).Nodup → (k, ws) ∈ g → g.lookup k = some ws
  | [], k, ws, hnd, h => by simp at h
  | (k0, ws0) :: rest, k, ws, hnd, h => by
      rcases List.mem_cons.mp h with he | hm
      · obtain ⟨h1, h2⟩ := Prod.mk.injEq .. ▸ he
        subst h1
        subst h2
        simp [List.lookup]
      · have hk : (k == k0) = false := by
          simp only [beq_eq_false_iff_ne, ne_eq]
          intro he2
          apply (List.nodup_cons.mp hnd).1
          show k0 ∈ (rest.map Prod.fst)
          rw [← he2]
          exact List.mem_map_of_mem Prod.fst hm
        rw [List.lookup, hk]
        exact lookup_of_mem_nodup rest k ws (List.nodup_cons.mp hnd).2 hm

theorem popComp_split (v : String) : ∀ (mid rest : List String), v ∉ mid →
    popComp v (mid ++ v :: rest) = (mid ++ [v], rest)
  | [], rest, hv => by simp [popComp]
  | w :: mid, rest, hv => by
      have hw : w ≠ v := fun he => hv (by simp [he])
      have hvm : v ∉ mid := fun h => hv (by simp [h])
      show popComp v (w :: (mid ++ v :: rest)) = ((w :: mid) ++ [v], rest)
      rw [popComp, if_neg hw, popComp_split v mid rest hvm]
      rfl

theorem TEvol_refl (st : TState) : TEvol st st :=
  ⟨fun _ h => h, ⟨[], rfl⟩, ⟨[], by simp⟩⟩

theorem TEvol_trans {a b c : TState} (h1 : TEvol a b) (h2 : TEvol b c) : TEvol a c := by
  obtain ⟨m1, ⟨n1, hs1⟩, ⟨a1, hc1⟩⟩ := h1
  obtain ⟨m2, ⟨n2, hs2⟩, ⟨a2, hc2⟩⟩ := h2
  exact ⟨fun x h => m2 x (m1 x h),
    ⟨n2 ++ n1, by rw [hs2, hs1, List.append_assoc]⟩,
    ⟨a1 ++ a2, by rw [hc2, hc1, List.append_assoc]⟩⟩

theorem TEvol_congr_right {a st st' : TState}
    (hi : st'.indices = st.indices) (hs : st'.stack = st.stack) (hc : st'.sccs = st.sccs)
    (h : TEvol a st) : TEvol a st' := by
  obtain ⟨hm, ⟨n, hstk⟩, ⟨ad, hsc⟩⟩ := h
  exact ⟨fun x hx => by rw [hi]; exact hm x hx, ⟨n, by rw [hs, hstk]⟩,
    ⟨ad, by rw [hc, hsc]⟩⟩

theorem TInv_congr {st st' : TState}
    (hi : st'.indices = st.indices) (hs : st'.stack = st.stack) (hc : st'.sccs = st.sccs)
    (ho : st'.onstack = st.onstack) (h : TInv st) : TInv st' := by
  obtain ⟨h1, h2, h3⟩ := h
  refine ⟨by rw [hc, hs]; exact h1, fun x hx => ?_, fun x => by rw [ho, hs]; exact h3 x⟩
  rw [hi]
  apply h2
  rwa [hc, hs] at hx

theorem pushNode_mono (v : String) (st : TState) (x : String)
    (h : (st.indices x).isSome = true) : ((pushNode v st).indices x).isSome = true := by
  by_cases hx : x = v <;> simp [pushNode, hx, h]

theorem pushNode_inv (v : String) (st : TState) (hv : st.indices v = none)
    (hinv : TInv st) : TInv (pushNode v st) := by
  obtain ⟨hnd, hsome, hos⟩ := hinv
  have hvnot : v ∉ st.sccs.flatten ++ st.stack := by
    intro hmem
    have := hsome v hmem
    rw [hv] at this
    simp at this
  refine ⟨?_, ?_, ?_⟩
  · show (st.sccs.flatten ++ v :: st.stack).Nodup
    rw [List.nodup_middle]
    exact List.nodup_cons.mpr ⟨hvnot, hnd⟩
  · intro x hx
    show ((pushNode v st).indices x).isSome = true
    have hx2 : x ∈ st.sccs.flatten ++ (v :: st.stack) := hx
    by_cases hxv : x = v
    · simp [pushNode, hxv]
    · have hx3 : x ∈ st.sccs.flatten ++ st.stack := by
        rcases List.mem_append.mp hx2 with h | h
        · exact List.mem_append.mpr (.inl h)
        · rcases List.mem_cons.mp h with h2 | h2
          · exact absurd h2 hxv
          · exact List.mem_append.mpr (.inr h2)
      simp [pushNode, hxv, hsome x hx3]
  · intro x
    show x ∈ v :: st.onstack ↔ x ∈ v :: st.stack
    simp [hos x]

theorem closeNode_inv (v : String) (st2 : TState) (mid rest0 : List String)
    (hstack : st2.stack = mid ++ v :: rest0) (hinv : TInv st2) :
    TInv (closeNode v st2) ∧
      (∃ new2, (closeNode v st2).stack = new2 ++ rest0) ∧
      (∃ added, (closeNode v st2).sccs = st2.sccs ++ added) := by
  obtain ⟨hnd, hsome, hos⟩ := hinv
  have hstnd : st2.stack.Nodup := (List.nodup_append.mp hnd).2.1
  have hstnd2 : ((mid ++ [v]) ++ rest0).Nodup := by
    rw [hstack] at hstnd
    simpa [List.append_assoc] using hstnd
  have hvmid : v ∉ mid := by
    rw [hstack] at hstnd
    have hdisj := (List.nodup_append.mp hstnd).2.2
    intro hvm
    exact hdisj hvm (by simp)
  have hpop : popComp v st2.stack = (mid ++ [v], rest0) := by
    rw [hstack]
    exact popComp_split v mid rest0 hvmid
  have hcompsub : ∀ x ∈ mid ++ [v], x ∈ st2.stack := by
    intro x hx
    rw [hstack]
    rcases List.mem_append.mp hx with h | h
    · simp [h]
    · simp at h
      simp [h]
  have hdisj2 : ∀ x ∈ rest0, x ∉ mid ++ [v] := by
    intro x hx hc
    exact (List.nodup_append.mp hstnd2).2.2 hc hx
  by_cases hc : (st2.lowlink v).getD 0 = (st2.indices v).getD 0
  · have heq : closeNode v st2 =
        { st2 with
          stack := rest0
          onstack := st2.onstack.filter (fun x => decide (x ∉ (mid ++ [v])))
          sccs :=
            if (mid ++ [v]).length > 1 then st2.sccs ++ [mid ++ [v]] else st2.sccs } := by
      unfold closeNode
      rw [if_pos hc, hpop]
    rw [heq]
    refine ⟨⟨?_, ?_, ?_⟩, ⟨[], by simp⟩, ?_⟩
    · show ((if (mid ++ [v]).length > 1 then st2.sccs ++ [mid ++ [v]] else st2.sccs).flatten
          ++ rest0).Nodup
      by_cases hlen : (mid ++ [v]).length > 1
      · rw [if_pos hlen]
        have he : (st2.sccs ++ [mid ++ [v]]).flatten ++ rest0
            = st2.sccs.flatten ++ st2.stack := by
          rw [List.flatten_append, hstack]
          simp [List.append_assoc]
        rw [he]
        exact hnd
      · rw [if_neg hlen]
        refine hnd.sublist ?_
        refine List.Sublist.append_left ?_ _
        rw [hstack, show mid ++ v :: rest0 = (mid ++ [v]) ++ rest0 by simp]
        exact (List.suffix_append (mid ++ [v]) rest0).sublist
    · intro x hx
      show (st2.indices x).isSome = true
      apply hsome
      have hx2 : x ∈ (if (mid ++ [v]).length > 1 then st2.sccs ++ [mid ++ [v]]
          else st2.sccs).flatten ++ rest0 := hx
      by_cases hlen : (mid ++ [v]).length > 1
      · rw [if_pos hlen] at hx2
        rcases List.mem_append.mp hx2 with h | h
        · rw [List.flatten_append] at h
          rcases List.mem_append.mp h with h2 | h2
          · exact List.mem_append.mpr (.inl h2)
          · simp only [List.flatten_cons, List.flatten_nil, List.append_nil] at h2
            exact List.mem_append.mpr (.inr (hcompsub x h2))
        · refine List.mem_append.mpr (.inr ?_)
          rw [hstack]
          simp [h]
      · rw [if_neg hlen] at hx2
        rcases List.mem_append.mp hx2 with h | h
        · exact List.mem_append.mpr (.inl h)
        · refine List.mem_append.mpr (.inr ?_)
          rw [hstack]
          simp [h]
    · intro x
      show x ∈ st2.onstack.filter (fun x => decide (x ∉ (mid ++ [v]))) ↔ x ∈ rest0
      rw [List.mem_filter]
      simp only [decide_eq_true_eq]
      constructor
      · rintro ⟨hxon, hxnc⟩
        have hxs := (hos x).mp hxon
        rw [hstack] at hxs
        rcases List.mem_append.mp hxs with h | h
        · exact absurd (List.mem_append.mpr (.inl h)) hxnc
        · rcases List.mem_cons.mp h with h2 | h2
          · exact absurd (List.mem_append.mpr (.inr (by simp [h2]))) hxnc
          · exact h2
      · intro hx
        refine ⟨(hos x).mpr ?_, hdisj2 x hx⟩
        rw [hstack]
        simp [hx]
    · show ∃ added,
          (if (mid ++ [v]).length > 1 then st2.sccs ++ [mid ++ [v]] else st2.sccs)
            = st2.sccs ++ added
      by_cases hlen : (mid ++ [v]).length > 1
      · rw [if_pos hlen]
        exact ⟨[mid ++ [v]], rfl⟩
      · rw [if_neg hlen]
        exact ⟨[], by simp⟩
  · have heq : closeNode v st2 = st2 := by
      unfold closeNode
      rw [if_neg hc]
    rw [heq]
    refine ⟨⟨hnd, hsome, hos⟩, ⟨mid ++ [v], ?_⟩, ⟨[], by simp⟩⟩
    rw [hstack]
    simp

theorem dfsT_inv (g : Graph) :
    ∀ (fuel : Nat) (v : String) (st : TState), st.indices v = none → TInv st →
      TEvol st (dfsT g fuel v st) ∧ TInv (dfsT g fuel v st) := by
  intro fuel
  induction fuel with
  | zero => exact fun v st _ hinv => ⟨TEvol_refl st, hinv⟩
  | succ fuel ih =>
      intro v st hv hinv
      show TEvol st (dfsGo g (dfsT g fuel) v st) ∧ TInv (dfsGo g (dfsT g fuel) v st)
      unfold dfsGo
      have hpush := pushNode_inv v st hv hinv
      have hloop := foldl_preserve
        (fun s : TState => TEvol (pushNode v st) s ∧ TInv s)
        (fun s w => succStep (dfsT g fuel) v w s) (getSuccs g v) (pushNode v st)
        ⟨TEvol_refl _, hpush⟩
        (fun s2 w hw hP => by
          obtain ⟨hevol2, hinv2⟩ := hP
          by_cases hw2 : (s2.indices w).isNone = true
          · obtain ⟨e1, e2, e3, e4, e5⟩ := succStep_of_none (dfsT g fuel) v w s2 hw2
            have hrec := ih w s2 (Option.isNone_iff_eq_none.mp hw2) hinv2
            exact ⟨TEvol_congr_right e1 e2 e4 (TEvol_trans hevol2 hrec.1),
              TInv_congr e1 e2 e4 e3 hrec.2⟩
          · obtain ⟨e1, e2, e3, e4, e5⟩ :=
              succStep_of_some (dfsT g fuel) v w s2 (by rwa [Bool.not_eq_true] at hw2)
            exact ⟨TEvol_congr_right e1 e2 e4 hevol2, TInv_congr e1 e2 e4 e3 hinv2⟩)
      obtain ⟨⟨hmono2, ⟨new, hstk2⟩, ⟨ad2, hsc2⟩⟩, hinv2⟩ := hloop
      have hstack2 :
          ((getSuccs g v).foldl (fun s w => succStep (dfsT g fuel) v w s)
            (pushNode v st)).stack = new ++ v :: st.stack := hstk2
      have hclose := closeNode_inv v _ new st.stack hstack2 hinv2
      refine ⟨⟨?_, hclose.2.1, ?_⟩, hclose.1⟩
      · intro x hx
        rw [closeNode_indices]
        exact hmono2 x (pushNode_mono v st x hx)
      · obtain ⟨added, hadd⟩ := hclose.2.2
        refine ⟨ad2 ++ added, ?_⟩
        rw [hadd, hsc2]
        show (pushNode v st).sccs ++ ad2 ++ added = st.sccs ++ (ad2 ++ added)
        simp [pushNode, List.append_assoc]

theorem scc_state_inv (g : Graph) :
    TInv (g.foldl
      (fun st p => if (st.indices p.1).isNone then dfsT g (fuelFor g) p.1 st else st)
      initTState) := by
  refine foldl_preserve TInv _ _ _ ?_ ?_
  · refine ⟨by simp [initTState], ?_, by simp [initTState]⟩
    intro x hx
    simp [initTState] at hx
  · intro st2 p hp hinv
    by_cases hg : (st2.indices p.1).isNone = true
    · rw [if_pos hg]
      exact (dfsT_inv g (fuelFor g) p.1 st2 (Option.isNone_iff_eq_none.mp hg) hinv).2
    · rw [if_neg hg]
      exact hinv

theorem nodup_flatten_disjoint (l : List (List String)) (h : l.flatten.Nodup) :
    List.Pairwise (fun c1 c2 => ∀ x ∈ c1, x ∉ c2) l ∧ ∀ c ∈ l, c.Nodup := by
  induction l with
  | nil => simp
  | cons c rest ih =>
      rw [List.flatten_cons] at h
      obtain ⟨hc, hrest, hdisj⟩ := List.nodup_append.mp h
      obtain ⟨hp, hcn⟩ := ih hrest
      refine ⟨List.Pairwise.cons ?_ hp, ?_⟩
      · intro c2 hc2 x hx hx2
        exact hdisj hx (List.mem_flatten.mpr ⟨c2, hc2, hx2⟩)
      · intro c2 hc2
        rcases List.mem_cons.mp hc2 with rfl | h2
        · exact hc
        · exact hcn c2 h2

/-- C9: for every input graph, the components returned by
`strongly_connected_components` are pairwise disjoint — no node appears in
more than one returned component, and none appears twice inside one
component (each node is pushed onto the traversal stack at most once and
popped into at most one component). -/
theorem scc_disjoint (g : Graph) :
    List.Pairwise (fun c1 c2 => ∀ x ∈ c1, x ∉ c2) (strongly_connected_components g) ∧
      ∀ c ∈ strongly_connected_components g, c.Nodup := by
  apply nodup_flatten_disjoint
  have hinv := scc_state_inv g
  exact (List.nodup_append.mp hinv.1).1

theorem length_filter_le_of_imp {α : Type} (l : List α) (p q : α → Bool)
    (h : ∀ a ∈ l, p a = true → q a = true) :
    (l.filter p).length ≤ (l.filter q).length := by
  induction l with
  | nil => simp
  | cons a rest ih =>
      have ih2 := ih (fun a2 ha2 => h a2 (by simp [ha2]))
      by_cases hp : p a = true
      · rw [List.filter_cons_of_pos hp, List.filter_cons_of_pos (h a (by simp) hp)]
        simpa using ih2
      · rw [List.filter_cons_of_neg (by simpa using hp)]
        by_cases hq : q a = true
        · rw [List.filter_cons_of_pos hq]
          simp only [List.length_cons]
          omega
        · rw [List.filter_cons_of_neg (by simpa using hq)]
          exact ih2

theorem length_filter_lt_of_witness {α : Type} (p q : α → Bool) :
    ∀ (l : List α), (∀ a ∈ l, p a = true → q a = true) → ∀ a0 ∈ l,
      q a0 = true → p a0 = false →
      (l.filter p).length < (l.filter q).length
  | [], _, a0, ha0, _, _ => by simp at ha0
  | a :: rest, h, a0, ha0, hq, hp => by
      have hsub : ∀ a2 ∈ rest, p a2 = true → q a2 = true :=
        fun a2 ha2 => h a2 (by simp [ha2])
      rcases List.mem_cons.mp ha0 with rfl | hmem
      · rw [List.filter_cons_of_pos hq, List.filter_cons_of_neg (by simp [hp])]
        have hle := length_filter_le_of_imp rest p q hsub
        simp only [List.length_cons]
        omega
      · have hrec := length_filter_lt_of_witness p q rest hsub a0 hmem hq hp
        by_cases hpa : p a = true
        · rw [List.filter_cons_of_pos hpa, List.filter_cons_of_pos (h a (by simp) hpa)]
          simpa using hrec
        · rw [List.filter_cons_of_neg (by simpa using hpa)]
          by_cases hqa : q a = true
          · rw [List.filter_cons_of_pos hqa]
            simp only [List.length_cons]
            omega
          · rw [List.filter_cons_of_neg (by simpa using hqa)]
            exact hrec

theorem unvisCount_le_of_mono (g : Graph) (st st' : TState)
    (h : ∀ x, (st.indices x).isSome = true → (st'.indices x).isSome = true) :
    unvisCount g st' ≤ unvisCount g st := by
  refine length_filter_le_of_imp _ _ _ ?_
  intro a ha hp
  by_contra hqn
  have hsome : (st.indices a).isSome = true := by
    cases hx : st.indices a
    · simp [hx] at hqn
    · simp
  have h2 := h a hsome
  rw [Option.isNone_iff_eq_none] at hp
  rw [hp] at h2
  simp at h2

theorem unvisCount_congr (g : Graph) (st st' : TState) (h : st'.indices = st.indices) :
    unvisCount g st' = unvisCount g st := by
  unfold unvisCount
  rw [h]

theorem one_le_unvisCount (g : Graph) (st : TState) (v : String)
    (hv : v ∈ nodesOf g) (hnone : st.indices v = none) : 1 ≤ unvisCount g st := by
  have hmem : v ∈ (nodesOf g).filter (fun x => (st.indices x).isNone) :=
    List.mem_filter.mpr ⟨hv, by simp [hnone]⟩
  have := List.length_pos.mpr (List.ne_nil_of_mem hmem)
  unfold unvisCount
  omega

theorem unvisCount_pushNode_lt (g : Graph) (st : TState) (v : String)
    (hv : v ∈ nodesOf g) (hnone : st.indices v = none) :
    unvisCount g (pushNode v st) < unvisCount g st := by
  refine length_filter_lt_of_witness _ _ (nodesOf g) ?_ v hv ?_ ?_
  · intro a ha hp
    by_cases hav : a = v
    · subst hav
      simp [pushNode] at hp
    · simpa [pushNode, hav] using hp
  · simp [hnone]
  · simp [pushNode]

theorem unvisCount_le_length (g : Graph) (st : TState) :
    unvisCount g st ≤ (nodesOf g).length :=
  List.length_filter_le _ _

theorem dfsSuccs_marks (g : Graph) (fuel : Nat) (v : String)
    (ihf : ∀ (v2 : String) (st2 : TState), v2 ∈ nodesOf g → st2.indices v2 = none →
      unvisCount g st2 ≤ fuel →
      (((dfsT g fuel v2 st2).indices v2).isSome = true) ∧
      (∀ x, st2.indices x = none → ((dfsT g fuel v2 st2).indices x).isSome = true →
        ∀ w ∈ getSuccs g x, ((dfsT g fuel v2 st2).indices w).isSome = true)) :
    ∀ (ws : List String) (st2 : TState),
      (∀ w ∈ ws, w ∈ nodesOf g) → unvisCount g st2 ≤ fuel →
      (∀ x, (st2.indices x).isSome = true →
        ((ws.foldl (fun s w => succStep (dfsT g fuel) v w s) st2).indices x).isSome = true) ∧
      (∀ w ∈ ws,
        ((ws.foldl (fun s w => succStep (dfsT g fuel) v w s) st2).indices w).isSome = true) ∧
      (∀ x, st2.indices x = none →
        ((ws.foldl (fun s w => succStep (dfsT g fuel) v w s) st2).indices x).isSome = true →
        ∀ w2 ∈ getSuccs g x,
          ((ws.foldl (fun s w => succStep (dfsT g fuel) v w s) st2).indices w2).isSome = true)
  | [], st2, hsub, hcount => by
      refine ⟨fun x h => h, by simp, ?_⟩
      intro x hx hsome
      rw [show ([] : List String).foldl (fun s w => succStep (dfsT g fuel) v w s) st2 = st2
        from rfl] at hsome
      rw [hx] at hsome
      simp at hsome
  | w :: ws, st2, hsub, hcount => by
      simp only [List.foldl_cons]
      have hsub2 : ∀ w2 ∈ ws, w2 ∈ nodesOf g := fun w2 hw2 => hsub w2 (by simp [hw2])
      by_cases hw2 : (st2.indices w).isNone = true
      · obtain ⟨e1, e2, e3, e4, e5⟩ := succStep_of_none (dfsT g fuel) v w st2 hw2
        have hwnode : w ∈ nodesOf g := hsub w (by simp)
        have hcall := ihf w st2 hwnode (Option.isNone_iff_eq_none.mp hw2) hcount
        have hmono1 : ∀ x, (st2.indices x).isSome = true →
            ((succStep (dfsT g fuel) v w st2).indices x).isSome = true := by
          intro x hx
          rw [e1]
          exact dfsT_mono g fuel w st2 x hx
        have hcount2 : unvisCount g (succStep (dfsT g fuel) v w st2) ≤ fuel := by
          calc unvisCount g (succStep (dfsT g fuel) v w st2)
              ≤ unvisCount g st2 := unvisCount_le_of_mono g st2 _ hmono1
            _ ≤ fuel := hcount
        have hrec := dfsSuccs_marks g fuel v ihf ws (succStep (dfsT g fuel) v w st2)
          hsub2 hcount2
        refine ⟨fun x hx => hrec.1 x (hmono1 x hx), ?_, ?_⟩
        · intro w3 hw3
          rcases List.mem_cons.mp hw3 with rfl | h3
          · refine hrec.1 w3 ?_
            rw [e1]
            exact hcall.1
          · exact hrec.2.1 w3 h3
        · intro x hx hsome
          by_cases hmid : ((succStep (dfsT g fuel) v w st2).indices x).isSome = true
          · have hmid2 : ((dfsT g fuel w st2).indices x).isSome = true := by
              rw [← e1]
              exact hmid
            intro w2 hw2mem
            refine hrec.1 w2 ?_
            rw [e1]
            exact hcall.2 x hx hmid2 w2 hw2mem
          · have hnone2 : (succStep (dfsT g fuel) v w st2).indices x = none := by
              cases hx2 : (succStep (dfsT g fuel) v w st2).indices x
              · rfl
              · rw [hx2] at hmid
                simp at hmid
            exact hrec.2.2 x hnone2 hsome
      · obtain ⟨e1, e2, e3, e4, e5⟩ :=
          succStep_of_some (dfsT g fuel) v w st2 (by rwa [Bool.not_eq_true] at hw2)
        have hcount2 : unvisCount g (succStep (dfsT g fuel) v w st2) ≤ fuel := by
          rw [unvisCount_congr g st2 _ e1]
          exact hcount
        have hrec := dfsSuccs_marks g fuel v ihf ws (succStep (dfsT g fuel) v w st2)
          hsub2 hcount2
        refine ⟨fun x hx => hrec.1 x (by rw [e1]; exact hx), ?_, ?_⟩
        · intro w3 hw3
          rcases List.mem_cons.mp hw3 with rfl | h3
          · refine hrec.1 w3 ?_
            rw [e1]
            cases hx2 : st2.indices w3 with
            | none => exact absurd (by rw [hx2]; rfl) hw2
            | some val => simp
          · exact hrec.2.1 w3 h3
        · intro x hx hsome
          refine hrec.2.2 x ?_ hsome
          rw [e1]
          exact hx

theorem dfsT_marks (g : Graph) :
    ∀ (fuel : Nat) (v : String) (st : TState),
      v ∈ nodesOf g → st.indices v = none → unvisCount g st ≤ fuel →
      (((dfsT g fuel v st).indices v).isSome = true) ∧
      (∀ x, st.indices x = none → ((dfsT g fuel v st).indices x).isSome = true →
        ∀ w ∈ getSuccs g x, ((dfsT g fuel v st).indices w).isSome = true) := by
  intro fuel
  induction fuel with
  | zero =>
      intro v st hv hnone hcount
      have := one_le_unvisCount g st v hv hnone
      omega
  | succ fuel ih =>
      intro v st hv hnone hcount
      have hkey : dfsT g (fuel + 1) v st
          = closeNode v ((getSuccs g v).foldl
              (fun s w => succStep (dfsT g fuel) v w s) (pushNode v st)) := rfl
      rw [hkey]
      have hcount1 : unvisCount g (pushNode v st) ≤ fuel := by
        have := unvisCount_pushNode_lt g st v hv hnone
        omega
      have hsub : ∀ w ∈ getSuccs g v, w ∈ nodesOf g :=
        fun w hw => getSuccs_subset_nodesOf g v w hw
      have hloop := dfsSuccs_marks g fuel v ih (getSuccs g v) (pushNode v st) hsub hcount1
      rw [closeNode_indices]
      constructor
      · refine hloop.1 v ?_
        simp [pushNode]
      · intro x hx hsome
        by_cases hxv : x = v
        · subst hxv
          intro w hw
          exact hloop.2.1 w hw
        · have hx1 : (pushNode v st).indices x = none := by
            simp [pushNode, hxv, hx]
          exact hloop.2.2 x hx1 hsome

theorem scc_loop_marks (g : Graph) :
    ∀ (ps : List (String × List String)) (st : TState),
      (∀ p ∈ ps, p.1 ∈ nodesOf g) →
      (∀ x, (st.indices x).isSome = true →
        ∀ w ∈ getSuccs g x, (st.indices w).isSome = true) →
      (∀ x, (st.indices x).isSome = true →
        ((ps.foldl (fun st p => if (st.indices p.1).isNone then dfsT g (fuelFor g) p.1 st
          else st) st).indices x).isSome = true) ∧
      (∀ p ∈ ps,
        ((ps.foldl (fun st p => if (st.indices p.1).isNone then dfsT g (fuelFor g) p.1 st
          else st) st).indices p.1).isSome = true) ∧
      (∀ x,
        ((ps.foldl (fun st p => if (st.indices p.1).isNone then dfsT g (fuelFor g) p.1 st
          else st) st).indices x).isSome = true →
        ∀ w ∈ getSuccs g x,
          ((ps.foldl (fun st p => if (st.indices p.1).isNone then dfsT g (fuelFor g) p.1 st
            else st) st).indices w).isSome = true)
  | [], st, hsub, hSC => ⟨fun x h => h, by simp, fun x hx w hw => hSC x hx w hw⟩
  | p :: ps, st, hsub, hSC => by
      simp only [List.foldl_cons]
      have hsub2 : ∀ p2 ∈ ps, p2.1 ∈ nodesOf g := fun p2 hp2 => hsub p2 (by simp [hp2])
      by_cases hg : (st.indices p.1).isNone = true
      · rw [if_pos hg]
        have hnode : p.1 ∈ nodesOf g := hsub p (by simp)
        have hnone : st.indices p.1 = none := Option.isNone_iff_eq_none.mp hg
        have hcnt : unvisCount g st ≤ fuelFor g := by
          have := unvisCount_le_length g st
          unfold fuelFor
          omega
        have hmk := dfsT_marks g (fuelFor g) p.1 st hnode hnone hcnt
        have hSC2 : ∀ x, ((dfsT g (fuelFor g) p.1 st).indices x).isSome = true →
            ∀ w ∈ getSuccs g x, ((dfsT g (fuelFor g) p.1 st).indices w).isSome = true := by
          intro x hx w hw
          by_cases hxold : (st.indices x).isSome = true
          · exact dfsT_mono g _ p.1 st w (hSC x hxold w hw)
          · have hxnone : st.indices x = none := by
              cases hx2 : st.indices x
              · rfl
              · rw [hx2] at hxold
                simp at hxold
            exact hmk.2 x hxnone hx w hw
        have hrec := scc_loop_marks g ps (dfsT g (fuelFor g) p.1 st) hsub2 hSC2
        refine ⟨fun x hx => hrec.1 x (dfsT_mono g _ p.1 st x hx), ?_, hrec.2.2⟩
        intro p2 hp2
        rcases List.mem_cons.mp hp2 with rfl | h2
        · exact hrec.1 p2.1 hmk.1
        · exact hrec.2.1 p2 h2
      · rw [if_neg hg]
        have hrec := scc_loop_marks g ps st hsub2 hSC
        refine ⟨hrec.1, ?_, hrec.2.2⟩
        intro p2 hp2
        rcases List.mem_cons.mp hp2 with rfl | h2
        · refine hrec.1 p2.1 ?_
          cases hx2 : st.indices p2.1
          · exact absurd (by rw [hx2]; rfl) hg
          · simp
        · exact hrec.2.1 p2 h2

theorem lookup_append_some {β : Type} : ∀ (l1 l2 : List (String × β)) (k : String) (ws : β),
    l1.lookup k = some ws → (l1 ++ l2).lookup k = some ws
  | [], _, _, _, h => by simp at h
  | (k0, w0) :: rest, l2, k, ws, h => by
      rw [List.lookup] at h
      rw [List.cons_append, List.lookup]
      cases hb : (k == k0) with
      | true =>
          rw [hb] at h
          exact h
      | false =>
          rw [hb] at h
          exact lookup_append_some rest l2 k ws h

theorem lookup_append_none {β : Type} : ∀ (l1 l2 : List (String × β)) (k : String),
    l1.lookup k = none → (l1 ++ l2).lookup k = l2.lookup k
  | [], _, _, _ => rfl
  | (k0, w0) :: rest, l2, k, h => by
      rw [List.lookup] at h
      rw [List.cons_append, List.lookup]
      cases hb : (k == k0) with
      | true =>
          rw [hb] at h
          simp at h
      | false =>
          rw [hb] at h
          exact lookup_append_none rest l2 k h

theorem lookup_map_const : ∀ (l : List String) (k : String),
    ((l.map (fun w => (w, ([] : List String)))).lookup k).getD [] = []
  | [], _ => rfl
  | w :: rest, k => by
      rw [List.map_cons, List.lookup]
      cases hb : (k == w) with
      | true => rfl
      | false => exact lookup_map_const rest k

theorem getSuccs_complete (g : Graph) (v : String) :
    getSuccs (completedGraph g) v = getSuccs g v := by
  unfold getSuccs completedGraph
  cases hl : g.lookup v with
  | some ws => rw [lookup_append_some g _ v ws hl]
  | none =>
      rw [lookup_append_none g _ v hl]
      exact lookup_map_const _ v

theorem mem_nodesOf_complete (g : Graph) (x : String) :
    x ∈ nodesOf (completedGraph g) ↔ x ∈ nodesOf g := by
  unfold nodesOf completedGraph
  rw [List.mem_dedup, List.mem_dedup]
  constructor
  · intro h
    rcases List.mem_append.mp h with h | h
    · rw [List.map_append] at h
      rcases List.mem_append.mp h with h2 | h2
      · exact List.mem_append.mpr (.inl h2)
      · have hx : x ∈ missingTargets g := by
          simpa [List.map_map, Function.comp] using h2
        exact List.mem_append.mpr
          (.inr (List.mem_filter.mp (List.mem_dedup.mp hx)).1)
    · rw [List.map_append, List.flatten_append] at h
      rcases List.mem_append.mp h with h2 | h2
      · exact List.mem_append.mpr (.inr h2)
      · exfalso
        obtain ⟨l, hl, hxl⟩ := List.mem_flatten.mp h2
        obtain ⟨pr, hpr, hple⟩ := List.mem_map.mp hl
        obtain ⟨w, hwm, hwe⟩ := List.mem_map.mp hpr
        rw [← hwe] at hple
        rw [← hple] at hxl
        simp at hxl
  · intro h
    rcases List.mem_append.mp h with h | h
    · refine List.mem_append.mpr (.inl ?_)
      rw [List.map_append]
      exact List.mem_append.mpr (.inl h)
    · refine List.mem_append.mpr (.inr ?_)
      rw [List.map_append, List.flatten_append]
      exact List.mem_append.mpr (.inl h)

theorem fuelFor_complete (g : Graph) : fuelFor (completedGraph g) = fuelFor g := by
  unfold fuelFor
  congr 1
  have h1 : (nodesOf (completedGraph g)).Nodup := List.nodup_dedup _
  have h2 : (nodesOf g).Nodup := List.nodup_dedup _
  rw [← List.toFinset_card_of_nodup h1, ← List.toFinset_card_of_nodup h2]
  congr 1
  ext x
  simp only [List.mem_toFinset]
  exact mem_nodesOf_complete g x

/-- C10: `strongly_connected_components` never fails on an edge target that
is not a key of the mapping (as `build_graph` produces when a
package-prefix-classified import is not a module FQN): it is total and
treats every such target exactly as a node with no outgoing edges — adding
one explicit empty-successor binding per missing target leaves the result
unchanged. -/
theorem scc_missing_keys (g : Graph) (hnd : (g.map Prod.fst).Nodup) :
    strongly_connected_components (completedGraph g) = strongly_connected_components g := by
  have hdfs : ∀ fuel v st, dfsT (completedGraph g) fuel v st = dfsT g fuel v st :=
    dfsT_congr (completedGraph g) g (fun v => getSuccs_complete g v)
  unfold strongly_connected_components
  have hstep : (fun (st : TState) (p : String × List String) =>
        if (st.indices p.1).isNone then
          dfsT (completedGraph g) (fuelFor (completedGraph g)) p.1 st
        else st)
      = (fun (st : TState) (p : String × List String) =>
        if (st.indices p.1).isNone then dfsT g (fuelFor g) p.1 st else st) := by
    funext st p
    rw [fuelFor_complete, hdfs]
  rw [hstep]
  show ((g ++ (missingTargets g).map (fun w => (w, ([] : List String)))).foldl
      (fun st p => if (st.indices p.1).isNone then dfsT g (fuelFor g) p.1 st else st)
      initTState).sccs = _
  rw [List.foldl_append]
  have hmarks := scc_loop_marks g g initTState
    (fun p hp => key_mem_nodesOf g p hp)
    (by
      intro x hx
      simp [initTState] at hx)
  have hmissing : ∀ m ∈ missingTargets g,
      (((g.foldl (fun st p => if (st.indices p.1).isNone then dfsT g (fuelFor g) p.1 st
        else st) initTState)).indices m).isSome = true := by
    intro m hm
    have hmf : m ∈ (g.map Prod.snd).flatten :=
      (List.mem_filter.mp (List.mem_dedup.mp hm)).1
    obtain ⟨l, hl, hml⟩ := List.mem_flatten.mp hmf
    obtain ⟨p, hp, hpe⟩ := List.mem_map.mp hl
    have hkey := hmarks.2.1 p hp
    refine hmarks.2.2 p.1 hkey m ?_
    have hlk : g.lookup p.1 = some p.2 := lookup_of_mem_nodup g p.1 p.2 hnd hp
    unfold getSuccs
    rw [hlk]
    rw [← hpe] at hml
    exact hml
  have hid : ∀ (ms : List String),
      (∀ m ∈ ms,
        (((g.foldl (fun st p => if (st.indices p.1).isNone then dfsT g (fuelFor g) p.1 st
          else st) initTState)).indices m).isSome = true) →
      (ms.map (fun w => (w, ([] : List String)))).foldl
          (fun st p => if (st.indices p.1).isNone then dfsT g (fuelFor g) p.1 st else st)
          (g.foldl (fun st p => if (st.indices p.1).isNone then dfsT g (fuelFor g) p.1 st
            else st) initTState)
        = g.foldl (fun st p => if (st.indices p.1).isNone then dfsT g (fuelFor g) p.1 st
            else st) initTState := by
    intro ms
    induction ms with
    | nil => intro _; rfl
    | cons m rest ih =>
        intro hall
        rw [List.map_cons, List.foldl_cons]
        have hsome := hall m (by simp)
        have hnotnone : ¬ (((g.foldl (fun st p => if (st.indices p.1).isNone then
            dfsT g (fuelFor g) p.1 st else st) initTState)).indices m).isNone = true := by
          rw [Option.isSome_iff_ne_none] at hsome
          simpa [Option.isNone_iff_eq_none] using hsome
        rw [if_neg hnotnone]
        exact ih (fun m2 hm2 => hall m2 (by simp [hm2]))
  rw [hid (missingTargets g) hmissing]

theorem scc_missing_keys_witness :
    ((([("a", ["b"])] : Graph).map Prod.fst).Nodup) ∧
      strongly_connected_components (completedGraph [("a", ["b"])])
        = strongly_connected_components [("a", ["b"])] :=
  ⟨by decide, scc_missing_keys [("a", ["b"])] (by decide)⟩

theorem Reach_refl (g : Graph) (x : String) : Reach g x x :=
  Relation.ReflTransGen.refl

theorem Reach_trans {g : Graph} {x y z : String} (h1 : Reach g x y) (h2 : Reach g y z) :
    Reach g x z :=
  Relation.ReflTransGen.trans h1 h2

theorem Edge_reach {g : Graph} {x y : String} (h : Edge g x y) : Reach g x y :=
  Relation.ReflTransGen.single h

theorem SCCrel_refl (g : Graph) (x : String) : SCCrel g x x :=
  ⟨Reach_refl g x, Reach_refl g x⟩

theorem SCCrel_symm {g : Graph} {x y : String} (h : SCCrel g x y) : SCCrel g y x :=
  ⟨h.2, h.1⟩

theorem SCCrel_trans {g : Graph} {x y z : String} (h1 : SCCrel g x y) (h2 : SCCrel g y z) :
    SCCrel g x z :=
  ⟨Reach_trans h1.1 h2.1, Reach_trans h2.2 h1.2⟩

theorem stack_marked {st : TState} (hinv : TInv st) : ∀ x ∈ st.stack, marked st x :=
  fun x hx => hinv.2.1 x (List.mem_append.mpr (.inr hx))

theorem fresh_not_marked {st : TState} {x : String} (hf : freshIn st x) : ¬ marked st x := by
  intro hm
  rw [marked, hf] at hm
  simp at hm

theorem marked_or_fresh (st : TState) (x : String) : marked st x ∨ freshIn st x := by
  cases hx : st.indices x
  · exact .inr hx
  · exact .inl (by simp [marked, hx])

/-- Descending the low-link witnesses: when everything on the stack below
`v` reaches `v` and everything above `v` is finished, every stack node
reaches `v`. -/
theorem reach_descend (g : Graph) (st : TState) (v : String) (hsinv : SInv g st)
    (hv : v ∈ st.stack)
    (hbelow : ∀ x ∈ st.stack, idx st x < idx st v → Reach g x v)
    (habove : ∀ x ∈ st.stack, idx st v < idx st x → low st x < idx st x) :
    ∀ x ∈ st.stack, Reach g x v := by
  have smarked := stack_marked hsinv.tinv
  suffices h : ∀ n, ∀ x ∈ st.stack, idx st x = n → Reach g x v by
    intro x hx
    exact h _ x hx rfl
  intro n
  induction n using Nat.strong_induction_on with
  | _ n ih =>
      intro x hx hn
      rcases lt_trichotomy (idx st x) (idx st v) with hlt | heq | hgt
      · exact hbelow x hx hlt
      · rw [hsinv.idx_inj x v (smarked x hx) (smarked v hv) heq]
        exact Reach_refl g v
      · have hfin := habove x hx hgt
        obtain ⟨z, hz, hzi, hxz⟩ := hsinv.witness x hx
        have hzlt : idx st z < idx st x := by omega
        have hzv : Reach g z v := by
          rcases lt_trichotomy (idx st z) (idx st v) with h2 | h2 | h2
          · exact hbelow z hz h2
          · rw [hsinv.idx_inj z v (smarked z hz) (smarked v hv) h2]
            exact Reach_refl g v
          · exact ih (idx st z) (by omega) z hz rfl
        exact Reach_trans hxz hzv

theorem succStep_none_eq (recd : String → TState → TState) (v w : String) (st : TState)
    (h : (st.indices w).isNone = true) :
    succStep recd v w st = setLowV (recd w st) v (min (low (recd w st) v) (low (recd w st) w)) := by
  unfold succStep
  rw [if_pos h]
  rfl

theorem succStep_elif_eq (recd : String → TState → TState) (v w : String) (st : TState)
    (h1 : (st.indices w).isNone = false) (h2 : w ∈ st.onstack) :
    succStep recd v w st = setLowV st v (min (low st v) (idx st w)) := by
  unfold succStep
  rw [if_neg (by simp [h1]), if_pos h2]
  rfl

theorem succStep_else_eq (recd : String → TState → TState) (v w : String) (st : TState)
    (h1 : (st.indices w).isNone = false) (h2 : w ∉ st.onstack) :
    succStep recd v w st = st := by
  unfold succStep
  rw [if_neg (by simp [h1]), if_neg h2]

theorem low_set_v (st2 : TState) (v : String) (m : Nat) : low (setLowV st2 v m) v = m := by
  show (if v = v then some m else st2.lowlink v).getD 0 = m
  rw [if_pos rfl]
  rfl

theorem low_set_ne (st2 : TState) (v x : String) (m : Nat) (h : x ≠ v) :
    low (setLowV st2 v m) x = low st2 x := by
  show (if x = v then some m else st2.lowlink x).getD 0 = (st2.lowlink x).getD 0
  rw [if_neg h]

theorem setLowV_lowlink_ne (st2 : TState) (v x : String) (m : Nat) (h : x ≠ v) :
    (setLowV st2 v m).lowlink x = st2.lowlink x := by
  show (if x = v then some m else st2.lowlink x) = st2.lowlink x
  rw [if_neg h]

theorem pushNode_idx_v (v : String) (st : TState) : idx (pushNode v st) v = st.index := by
  show (if v = v then some st.index else st.indices v).getD 0 = st.index
  rw [if_pos rfl]
  rfl

theorem pushNode_low_v (v : String) (st : TState) : low (pushNode v st) v = st.index := by
  show (if v = v then some st.index else st.lowlink v).getD 0 = st.index
  rw [if_pos rfl]
  rfl

theorem pushNode_idx_ne (v : String) (st : TState) (x : String) (h : x ≠ v) :
    idx (pushNode v st) x = idx st x := by
  show (if x = v then some st.index else st.indices x).getD 0 = (st.indices x).getD 0
  rw [if_neg h]

theorem pushNode_low_ne (v : String) (st : TState) (x : String) (h : x ≠ v) :
    low (pushNode v st) x = low st x := by
  show (if x = v then some st.index else st.lowlink x).getD 0 = (st.lowlink x).getD 0
  rw [if_neg h]

theorem pushNode_marked_ne (v : String) (st : TState) (x : String) (h : x ≠ v) :
    marked (pushNode v st) x ↔ marked st x := by
  show ((if x = v then some st.index else st.indices x)).isSome = true ↔ _
  rw [if_neg h]
  exact Iff.rfl

theorem pushNode_marked_v (v : String) (st : TState) : marked (pushNode v st) v := by
  show ((if v = v then some st.index else st.indices v)).isSome = true
  rw [if_pos rfl]
  rfl

/-- Overwriting one stack node's low-link with a smaller witnessed value
preserves the full invariant. -/
theorem SInv_setLow (g : Graph) (st2 : TState) (v : String) (m : Nat)
    (hs : SInv g st2) (hv : v ∈ st2.stack) (hle : m ≤ idx st2 v)
    (hwit : ∃ z ∈ st2.stack, idx st2 z = m ∧ Reach g v z) :
    SInv g (setLowV st2 v m) := by
  refine ⟨hs.tinv, hs.idx_lt, hs.idx_inj, hs.sorted, hs.reach_up, ?_, ?_,
    hs.done_closed, hs.covered, hs.sccs_good⟩
  · intro x hx
    by_cases hxv : x = v
    · subst hxv
      rw [low_set_v]
      exact hle
    · rw [low_set_ne st2 v x m hxv]
      exact hs.low_le x hx
  · intro x hx
    by_cases hxv : x = v
    · subst hxv
      obtain ⟨z, hz, hzi, hzr⟩ := hwit
      rw [low_set_v]
      exact ⟨z, hz, hzi, hzr⟩
    · rw [low_set_ne st2 v x m hxv]
      exact hs.witness x hx

/-- Pushing a fresh node reached by the whole stack preserves the full
invariant. -/
theorem SInv_pushNode (g : Graph) (st : TState) (v : String)
    (hs : SInv g st) (hv : freshIn st v)
    (hreach : ∀ x ∈ st.stack, Reach g x v) : SInv g (pushNode v st) := by
  have smarked := stack_marked hs.tinv
  have hvstack : v ∉ st.stack := fun h => fresh_not_marked hv (smarked v h)
  have hmark2 : ∀ x, marked (pushNode v st) x → v = x ∨ marked st x := by
    intro x hx
    by_cases hxv : x = v
    · exact .inl hxv.symm
    · exact .inr ((pushNode_marked_ne v st x hxv).mp hx)
  have hmemv : ∀ x, x ∈ v :: st.stack → v = x ∨ x ∈ st.stack :=
    fun x hx => (List.mem_cons.mp hx).imp Eq.symm id
  refine ⟨pushNode_inv v st hv hs.tinv, ?_, ?_, ?_, ?_, ?_, ?_, ?_, ?_, hs.sccs_good⟩
  · intro x hx
    show idx (pushNode v st) x < st.index + 1
    rcases hmark2 x hx with rfl | hm
    · rw [pushNode_idx_v]
      omega
    · have hxv : x ≠ v := fun he => fresh_not_marked hv (he ▸ hm)
      rw [pushNode_idx_ne v st x hxv]
      have := hs.idx_lt x hm
      omega
  · intro x y hx hy hxy
    rcases hmark2 x hx with rfl | hmx
    · rcases hmark2 y hy with rfl | hmy
      · rfl
      · have hyv : y ≠ v := fun he => fresh_not_marked hv (he ▸ hmy)
        rw [pushNode_idx_v, pushNode_idx_ne v st y hyv] at hxy
        have := hs.idx_lt y hmy
        exfalso
        omega
    · have hxv : x ≠ v := fun he => fresh_not_marked hv (he ▸ hmx)
      rcases hmark2 y hy with rfl | hmy
      · rw [pushNode_idx_v, pushNode_idx_ne v st x hxv] at hxy
        have := hs.idx_lt x hmx
        exfalso
        omega
      · have hyv : y ≠ v := fun he => fresh_not_marked hv (he ▸ hmy)
        rw [pushNode_idx_ne v st x hxv, pushNode_idx_ne v st y hyv] at hxy
        exact hs.idx_inj x y hmx hmy hxy
  · show ((v :: st.stack).Pairwise fun a b => idx (pushNode v st) b < idx (pushNode v st) a)
    refine List.Pairwise.cons ?_ ?_
    · intro b hb
      have hbv : b ≠ v := fun he => hvstack (he ▸ hb)
      rw [pushNode_idx_v, pushNode_idx_ne v st b hbv]
      exact hs.idx_lt b (smarked b hb)
    · refine hs.sorted.imp_of_mem ?_
      intro a b ha hb hab
      have hav : a ≠ v := fun he => hvstack (he ▸ ha)
      have hbv : b ≠ v := fun he => hvstack (he ▸ hb)
      rw [pushNode_idx_ne v st a hav, pushNode_idx_ne v st b hbv]
      exact hab
  · intro x hx y hy hxy
    have hx2 : x ∈ v :: st.stack := hx
    have hy2 : y ∈ v :: st.stack := hy
    rcases hmemv x hx2 with rfl | hxs
    · rcases hmemv y hy2 with rfl | hys
      · exact Reach_refl g v
      · have hyv : y ≠ v := fun he => hvstack (he ▸ hys)
        rw [pushNode_idx_v, pushNode_idx_ne v st y hyv] at hxy
        have := hs.idx_lt y (smarked y hys)
        exfalso
        omega
    · rcases hmemv y hy2 with rfl | hys
      · exact hreach x hxs
      · have hxv : x ≠ v := fun he => hvstack (he ▸ hxs)
        have hyv : y ≠ v := fun he => hvstack (he ▸ hys)
        rw [pushNode_idx_ne v st x hxv, pushNode_idx_ne v st y hyv] at hxy
        exact hs.reach_up x hxs y hys hxy
  · intro x hx
    have hx2 : x ∈ v :: st.stack := hx
    rcases List.mem_cons.mp hx2 with rfl | hxs
    · rw [pushNode_idx_v, pushNode_low_v]
    · have hxv : x ≠ v := fun he => hvstack (he ▸ hxs)
      rw [pushNode_idx_ne v st x hxv, pushNode_low_ne v st x hxv]
      exact hs.low_le x hxs
  · intro x hx
    have hx2 : x ∈ v :: st.stack := hx
    rcases List.mem_cons.mp hx2 with rfl | hxs
    · exact ⟨x, by simp [pushNode], by rw [pushNode_idx_v, pushNode_low_v], Reach_refl g x⟩
    · have hxv : x ≠ v := fun he => hvstack (he ▸ hxs)
      obtain ⟨z, hz, hzi, hzr⟩ := hs.witness x hxs
      have hzv : z ≠ v := fun he => hvstack (he ▸ hz)
      refine ⟨z, ?_, ?_, hzr⟩
      · show z ∈ v :: st.stack
        simp [hz]
      · rw [pushNode_idx_ne v st z hzv, pushNode_low_ne v st x hxv]
        exact hzi
  · intro x hx hxs y hxy
    have hxv : x ≠ v := by
      intro he
      subst he
      exact hxs (by show x ∈ x :: st.stack; simp)
    have hmx : marked st x := (pushNode_marked_ne v st x hxv).mp hx
    have hxs2 : x ∉ st.stack := fun h => hxs (by show x ∈ v :: st.stack; simp [h])
    obtain ⟨hmy, hys⟩ := hs.done_closed x hmx hxs2 y hxy
    have hyv : y ≠ v := fun he => fresh_not_marked hv (he ▸ hmy)
    refine ⟨(pushNode_marked_ne v st y hyv).mpr hmy, ?_⟩
    intro hy
    have hy2 : y ∈ v :: st.stack := hy
    rcases List.mem_cons.mp hy2 with rfl | hys2
    · exact hyv rfl
    · exact hys hys2
  · intro x hx hxs y hyx hxy
    have hxv : x ≠ v := by
      intro he
      subst he
      exact hxs (by show x ∈ x :: st.stack; simp)
    have hmx : marked st x := (pushNode_marked_ne v st x hxv).mp hx
    have hxs2 : x ∉ st.stack := fun h => hxs (by show x ∈ v :: st.stack; simp [h])
    exact hs.covered x hmx hxs2 y hyx hxy

/-- Entering the inner `dfs`: pushing the fresh node establishes the loop
invariant. -/
theorem LoopInv_push (g : Graph) (st : TState) (v : String)
    (hs : SInv g st) (hv : freshIn st v)
    (hreach : ∀ x ∈ st.stack, Reach g x v) : LoopInv g st v (pushNode v st) := by
  have smarked := stack_marked hs.tinv
  refine ⟨SInv_pushNode g st v hs hv hreach, ?_, ?_, pushNode_mono v st, ?_, ⟨[], rfl, by simp⟩,
    pushNode_marked_v v st, pushNode_idx_v v st, ?_, ?_, ?_, ?_, ?_⟩
  · intro x hx
    have hxv : x ≠ v := fun he => fresh_not_marked hv (he ▸ hx)
    show (if x = v then some st.index else st.indices x) = st.indices x
    rw [if_neg hxv]
  · intro x hx
    have hxv : x ≠ v := fun he => fresh_not_marked hv (he ▸ hx)
    show (if x = v then some st.index else st.lowlink x) = st.lowlink x
    rw [if_neg hxv]
  · show st.index < st.index + 1
    omega
  · intro x hfx hmx
    by_cases hxv : x = v
    · subst hxv
      rw [pushNode_idx_v]
    · exact absurd ((pushNode_marked_ne v st x hxv).mp hmx) (fresh_not_marked hfx)
  · intro x hfx hmx
    by_cases hxv : x = v
    · subst hxv
      exact Reach_refl g x
    · exact absurd ((pushNode_marked_ne v st x hxv).mp hmx) (fresh_not_marked hfx)
  · intro x hfx hmx hxv
    exact absurd ((pushNode_marked_ne v st x hxv).mp hmx) (fresh_not_marked hfx)
  · intro x hx
    have hx2 : x ∈ v :: st.stack := hx
    rcases List.mem_cons.mp hx2 with rfl | hxs
    · exact Reach_refl g x
    · exact hreach x hxs
  · intro x hfx hx hxv
    have hx2 : x ∈ v :: st.stack := hx
    rcases List.mem_cons.mp hx2 with rfl | hxs
    · exact absurd rfl hxv
    · exact absurd (smarked x hxs) (fresh_not_marked hfx)

theorem dfsT_succ_eq (g : Graph) (fuel : Nat) (v : String) (st : TState) :
    dfsT g (fuel + 1) v st = closeNode v (loopFold g fuel v (getSuccs g v) (pushNode v st)) :=
  rfl

theorem pairwise_cons_of_append {R : String → String → Prop} (l1 l2 : List String)
    (v : String) (h : (l1 ++ v :: l2).Pairwise R) : ∀ x ∈ l2, R v x := by
  have h2 : (v :: l2).Pairwise R :=
    List.Pairwise.sublist (List.suffix_append l1 (v :: l2)).sublist h
  exact (List.pairwise_cons.mp h2).1

/-- The already-indexed on-stack successor branch of the loop preserves
the loop invariant and only lowers `v`'s low-link, bounded by the
successor's index. -/
theorem LoopInv_elif (g : Graph) (st : TState) (v w : String) (st2 : TState)
    (recd : String → TState → TState)
    (hfv : freshIn st v) (hL : LoopInv g st v st2) (hw : w ∈ getSuccs g v)
    (h1 : (st2.indices w).isNone = false) (h2 : w ∈ st2.onstack) :
    LoopInv g st v (succStep recd v w st2) ∧
    (succStep recd v w st2).indices = st2.indices ∧
    low (succStep recd v w st2) v ≤ low st2 v ∧
    low (succStep recd v w st2) v ≤ idx st2 w := by
  rw [succStep_elif_eq recd v w st2 h1 h2]
  have hvstack : v ∈ st2.stack := by
    obtain ⟨rem, hform, hrem⟩ := hL.stack_form
    rw [hform]
    simp
  have hwstack : w ∈ st2.stack := (hL.sinv.tinv.2.2 w).mp h2
  have hwmarked : marked st2 w := stack_marked hL.sinv.tinv w hwstack
  have hlowv : low st2 v ≤ idx st2 v := hL.sinv.low_le v hvstack
  have hmle : min (low st2 v) (idx st2 w) ≤ low st2 v := Nat.min_le_left _ _
  have hsinv2 : SInv g (setLowV st2 v (min (low st2 v) (idx st2 w))) := by
    refine SInv_setLow g st2 v _ hL.sinv hvstack (le_trans hmle hlowv) ?_
    rcases Nat.le_total (low st2 v) (idx st2 w) with hc | hc
    · rw [Nat.min_eq_left hc]
      exact hL.sinv.witness v hvstack
    · rw [Nat.min_eq_right hc]
      exact ⟨w, hwstack, rfl, Edge_reach hw⟩
  refine ⟨⟨hsinv2, hL.pres_idx, ?_, hL.mono, hL.counter_gt, hL.stack_form, hL.marked_v,
    hL.idx_v, hL.new_idx_ge, hL.reach_v, hL.succ_closed, hL.lr, ?_⟩, rfl, ?_, ?_⟩
  · intro x hx
    have hxv : x ≠ v := fun he => fresh_not_marked hfv (he ▸ hx)
    rw [setLowV_lowlink_ne st2 v x _ hxv]
    exact hL.pres_low x hx
  · intro x hfx hxs hxv
    obtain ⟨hfin1, hfin2⟩ := hL.fin_above x hfx hxs hxv
    rw [low_set_ne st2 v x _ hxv, low_set_v]
    exact ⟨hfin1, le_trans hmle hfin2⟩
  · rw [low_set_v]
    exact hmle
  · rw [low_set_v]
    exact Nat.min_le_right _ _

/-- The fresh-successor branch of the loop: after the recursive call and
the low-link merge, the loop invariant holds again, `v`'s low-link only
decreases, and every newly indexed node with an edge back into the outer
stack bounds it. -/
theorem LoopInv_fresh_core (g : Graph) (st : TState) (v w : String) (st2 inner : TState)
    (hs : SInv g st) (hfv : freshIn st v)
    (hreach0 : ∀ x ∈ st.stack, Reach g x v)
    (hL : LoopInv g st v st2) (hw : w ∈ getSuccs g v)
    (hfw : freshIn st2 w)
    (hpost : DfsPost g st2 inner w) :
    LoopInv g st v (setLowV inner v (min (low inner v) (low inner w))) ∧
    marked (setLowV inner v (min (low inner v) (low inner w))) w ∧
    (∀ x, marked st2 x → marked (setLowV inner v (min (low inner v) (low inner w))) x) ∧
    low (setLowV inner v (min (low inner v) (low inner w))) v ≤ low st2 v ∧
    (∀ b ∈ st.stack,
      (∃ a, freshIn st2 a ∧ marked (setLowV inner v (min (low inner v) (low inner w))) a ∧
        b ∈ getSuccs g a) →
      low (setLowV inner v (min (low inner v) (low inner w))) v ≤ idx st b) := by
  obtain ⟨rem, hform, hrem⟩ := hL.stack_form
  obtain ⟨new, hnewstack, hnewfresh⟩ := hpost.stack_suffix
  have hvst2 : v ∈ st2.stack := by
    rw [hform]
    simp
  have hvinner : v ∈ inner.stack := by
    rw [hnewstack]
    exact List.mem_append.mpr (.inr hvst2)
  have hlow_eq : low inner v = low st2 v := by
    unfold low
    rw [hpost.pres_low v hL.marked_v]
  have hidx_eq : idx inner v = idx st2 v := by
    unfold idx
    rw [hpost.pres_idx v hL.marked_v]
  have hlowle2 : low st2 v ≤ idx st2 v := hL.sinv.low_le v hvst2
  have hidxlt2 : idx st2 v < st2.index := hL.sinv.idx_lt v hL.marked_v
  have hfresh2 : ∀ x, ¬ marked st2 x → freshIn st2 x := by
    intro x hm
    rcases marked_or_fresh st2 x with h | h
    · exact absurd h hm
    · exact h
  have hfreshnew : ∀ x ∈ new, freshIn st x ∧ x ≠ v := by
    intro x hxn
    have hfx2 : freshIn st2 x := hnewfresh x hxn
    have hfx : freshIn st x := by
      rcases marked_or_fresh st x with hm | hf
      · exact absurd (hL.mono x hm) (fresh_not_marked hfx2)
      · exact hf
    exact ⟨hfx, fun he => fresh_not_marked hfx2 (he.symm ▸ hL.marked_v)⟩
  have hstackS : inner.stack = (new ++ rem) ++ v :: st.stack := by
    rw [hnewstack, hform, List.append_assoc]
  have hfreshnewrem : ∀ x ∈ new ++ rem, freshIn st x ∧ x ≠ v := by
    intro x hx
    rcases List.mem_append.mp hx with h | h
    · exact hfreshnew x h
    · exact hrem x h
  have hsinv2 : SInv g (setLowV inner v (min (low inner v) (low inner w))) := by
    refine SInv_setLow g inner v _ hpost.sinv hvinner ?_ ?_
    · have hminle := Nat.min_le_left (low inner v) (low inner w)
      omega
    · rcases Nat.le_total (low inner v) (low inner w) with hc | hc
      · rw [Nat.min_eq_left hc]
        obtain ⟨z, hz, hzi, hzr⟩ := hL.sinv.witness v hvst2
        have hzmark : marked st2 z := stack_marked hL.sinv.tinv z hz
        refine ⟨z, ?_, ?_, hzr⟩
        · rw [hnewstack]
          exact List.mem_append.mpr (.inr hz)
        · have hpe : idx inner z = idx st2 z := by
            unfold idx
            rw [hpost.pres_idx z hzmark]
          omega
      · rw [Nat.min_eq_right hc]
        rcases hpost.dichotomy with ⟨hA1, hA2, hA3⟩ | ⟨hwin, hB⟩
        · exfalso
          have h2 : st2.index ≤ idx inner w := hpost.new_idx_ge w hfw hpost.marked_v
          omega
        · obtain ⟨z, hz, hzi, hzr⟩ := hpost.sinv.witness w hwin
          exact ⟨z, hz, hzi, Reach_trans (Edge_reach hw) hzr⟩
  have hpres_idx : ∀ x, marked st x → inner.indices x = st.indices x := by
    intro x hx
    rw [hpost.pres_idx x (hL.mono x hx)]
    exact hL.pres_idx x hx
  have hmono2 : ∀ x, marked st x → marked inner x := fun x hx => hpost.mono x (hL.mono x hx)
  have hnewge : ∀ x, freshIn st x → marked inner x → st.index ≤ idx inner x := by
    intro x hfx hmx
    by_cases hm2 : marked st2 x
    · have h1 := hL.new_idx_ge x hfx hm2
      have hpe : idx inner x = idx st2 x := by
        unfold idx
        rw [hpost.pres_idx x hm2]
      omega
    · have h1 := hpost.new_idx_ge x (hfresh2 x hm2) hmx
      have h2 := hL.counter_gt
      omega
  have hreachv2 : ∀ x, freshIn st x → marked inner x → Reach g v x := by
    intro x hfx hmx
    by_cases hm2 : marked st2 x
    · exact hL.reach_v x hfx hm2
    · exact Reach_trans (Edge_reach hw) (hpost.reach_v x (hfresh2 x hm2) hmx)
  have hsucc2 : ∀ x, freshIn st x → marked inner x → x ≠ v →
      ∀ w2 ∈ getSuccs g x, marked inner w2 := by
    intro x hfx hmx hxv w2 hw2
    by_cases hm2 : marked st2 x
    · exact hpost.mono w2 (hL.succ_closed x hfx hm2 hxv w2 hw2)
    · exact hpost.succ_marked x (hfresh2 x hm2) hmx w2 hw2
  have hidxSv : idx (setLowV inner v (min (low inner v) (low inner w))) v = st.index := by
    show idx inner v = st.index
    rw [hidx_eq]
    exact hL.idx_v
  have hfinS : ∀ x, freshIn st x →
      x ∈ (setLowV inner v (min (low inner v) (low inner w))).stack → x ≠ v →
      low (setLowV inner v (min (low inner v) (low inner w))) x
        < idx (setLowV inner v (min (low inner v) (low inner w))) x ∧
      low (setLowV inner v (min (low inner v) (low inner w))) v
        ≤ low (setLowV inner v (min (low inner v) (low inner w))) x := by
    intro x hfx hxs hxv
    have hxinner : x ∈ inner.stack := hxs
    rw [low_set_ne inner v x _ hxv, low_set_v]
    show low inner x < idx inner x ∧ min (low inner v) (low inner w) ≤ low inner x
    by_cases hm2 : marked st2 x
    · have hxst2 : x ∈ st2.stack := by
        rw [hnewstack] at hxinner
        rcases List.mem_append.mp hxinner with h | h
        · exact absurd hm2 (fresh_not_marked (hnewfresh x h))
        · exact h
      obtain ⟨hf1, hf2⟩ := hL.fin_above x hfx hxst2 hxv
      have hlx : low inner x = low st2 x := by
        unfold low
        rw [hpost.pres_low x hm2]
      have hix : idx inner x = idx st2 x := by
        unfold idx
        rw [hpost.pres_idx x hm2]
      have hm3 := Nat.min_le_left (low inner v) (low inner w)
      omega
    · rcases hpost.dichotomy with ⟨hA1, hA2, hA3⟩ | ⟨hwin, hB⟩
      · exfalso
        rw [hA1] at hxinner
        exact fresh_not_marked (hfresh2 x hm2) (stack_marked hL.sinv.tinv x hxinner)
      · obtain ⟨hb1, hb2⟩ := hB x (hfresh2 x hm2) hxinner
        have hm3 := Nat.min_le_right (low inner v) (low inner w)
        omega
  have hlrS : ∀ x ∈ (setLowV inner v (min (low inner v) (low inner w))).stack, Reach g x v := by
    refine reach_descend g _ v hsinv2 hvinner ?_ ?_
    · intro x hx hlt
      have hxinner : x ∈ inner.stack := hx
      rw [hidxSv] at hlt
      rw [hstackS] at hxinner
      rcases List.mem_append.mp hxinner with hnr | hvs
      · exfalso
        obtain ⟨hfx, hxv⟩ := hfreshnewrem x hnr
        have hmS : marked (setLowV inner v (min (low inner v) (low inner w))) x :=
          stack_marked hsinv2.tinv x hx
        have hge := hnewge x hfx hmS
        have he2 : idx (setLowV inner v (min (low inner v) (low inner w))) x
            = idx inner x := rfl
        omega
      · rcases List.mem_cons.mp hvs with he | hst
        · exfalso
          rw [he] at hlt
          rw [hidxSv] at hlt
          omega
        · exact hreach0 x hst
    · intro x hx hgt
      have hxinner : x ∈ inner.stack := hx
      rw [hidxSv] at hgt
      rw [hstackS] at hxinner
      rcases List.mem_append.mp hxinner with hnr | hvs
      · obtain ⟨hfx, hxv⟩ := hfreshnewrem x hnr
        exact (hfinS x hfx hx hxv).1
      · rcases List.mem_cons.mp hvs with he | hst
        · exfalso
          rw [he] at hgt
          rw [hidxSv] at hgt
          omega
        · exfalso
          have hmx : marked st x := stack_marked hs.tinv x hst
          have h1 : idx st x < st.index := hs.idx_lt x hmx
          have h2 : idx (setLowV inner v (min (low inner v) (low inner w))) x = idx st x := by
            show idx inner x = idx st x
            unfold idx
            rw [hpres_idx x hmx]
          omega
  have hLS : LoopInv g st v (setLowV inner v (min (low inner v) (low inner w))) := by
    refine ⟨hsinv2, ?_, ?_, ?_, ?_, ?_, ?_, hidxSv, ?_, ?_, ?_, hlrS, hfinS⟩
    · exact hpres_idx
    · intro x hx
      have hxv : x ≠ v := fun he => fresh_not_marked hfv (he ▸ hx)
      rw [setLowV_lowlink_ne inner v x _ hxv]
      rw [hpost.pres_low x (hL.mono x hx)]
      exact hL.pres_low x hx
    · exact hmono2
    · show st.index < inner.index
      exact lt_trans hL.counter_gt hpost.counter_gt
    · exact ⟨new ++ rem, hstackS, hfreshnewrem⟩
    · exact hpost.mono v hL.marked_v
    · exact hnewge
    · exact hreachv2
    · exact hsucc2
  refine ⟨hLS, hpost.marked_v, hpost.mono, ?_, ?_⟩
  · rw [low_set_v]
    have hm3 := Nat.min_le_left (low inner v) (low inner w)
    omega
  · intro b hb hex
    obtain ⟨a, hfa2, hma, hedge⟩ := hex
    have hbst2 : b ∈ st2.stack := by
      rw [hform]
      exact List.mem_append.mpr (.inr (List.mem_cons_of_mem v hb))
    have hback := hpost.back_low b hbst2 ⟨a, hfa2, hma, hedge⟩
    have hib : idx st2 b = idx st b := by
      unfold idx
      rw [hL.pres_idx b (stack_marked hs.tinv b hb)]
    rw [low_set_v]
    have hm3 := Nat.min_le_right (low inner v) (low inner w)
    omega

/-- The successor loop of the inner `dfs` maintains the loop invariant;
at exit every processed successor is indexed and every edge from a newly
indexed node back into the outer stack bounds `v`'s low-link. -/
theorem dfsLoop_master (g : Graph) (fuel : Nat) (st : TState) (v : String)
    (ihf : DfsMaster g fuel) (hs : SInv g st) (hfv : freshIn st v)
    (hreach0 : ∀ x ∈ st.stack, Reach g x v) :
    ∀ (ws : List String) (st2 : TState),
      (∀ w ∈ ws, w ∈ getSuccs g v) →
      unvisCount g st2 ≤ fuel →
      LoopInv g st v st2 →
      (∀ b ∈ st.stack,
        (∃ a, freshIn st a ∧ marked st2 a ∧ b ∈ getSuccs g a ∧ (a ≠ v ∨ b ∉ ws)) →
        low st2 v ≤ idx st b) →
      LoopInv g st v (loopFold g fuel v ws st2) ∧
      unvisCount g (loopFold g fuel v ws st2) ≤ fuel ∧
      (∀ w ∈ ws, marked (loopFold g fuel v ws st2) w) ∧
      (∀ x, marked st2 x → marked (loopFold g fuel v ws st2) x) ∧
      (∀ b ∈ st.stack,
        (∃ a, freshIn st a ∧ marked (loopFold g fuel v ws st2) a ∧ b ∈ getSuccs g a) →
        low (loopFold g fuel v ws st2) v ≤ idx st b)
  | [], st2, hws, hcount, hL, hback => by
      refine ⟨hL, hcount, ?_, fun x h => h, ?_⟩
      · intro w hw
        exact absurd hw (List.not_mem_nil w)
      · intro b hb hex
        obtain ⟨a, h1, h2, h3⟩ := hex
        exact hback b hb ⟨a, h1, h2, h3, .inr (List.not_mem_nil b)⟩
  | w :: ws, st2, hws, hcount, hL, hback => by
      have hwmem : w ∈ getSuccs g v := hws w (by simp)
      have hws2 : ∀ w2 ∈ ws, w2 ∈ getSuccs g v := fun w2 h => hws w2 (by simp [h])
      have hunfold : loopFold g fuel v (w :: ws) st2
          = loopFold g fuel v ws (succStep (dfsT g fuel) v w st2) := rfl
      rw [hunfold]
      by_cases hnone : (st2.indices w).isNone = true
      · -- fresh successor: recursive dfs call
        have hfw : freshIn st2 w := Option.isNone_iff_eq_none.mp hnone
        have hpost : DfsPost g st2 (dfsT g fuel w st2) w :=
          ihf w st2 (getSuccs_subset_nodesOf g v w hwmem) hfw hcount hL.sinv
            (fun x hx => Reach_trans (hL.lr x hx) (Edge_reach hwmem))
        have hcore := LoopInv_fresh_core g st v w st2 (dfsT g fuel w st2)
          hs hfv hreach0 hL hwmem hfw hpost
        rw [succStep_none_eq (dfsT g fuel) v w st2 hnone]
        have hcount2 : unvisCount g (setLowV (dfsT g fuel w st2) v
            (min (low (dfsT g fuel w st2) v) (low (dfsT g fuel w st2) w))) ≤ fuel := by
          rw [unvisCount_congr g (dfsT g fuel w st2)
            (setLowV (dfsT g fuel w st2) v
              (min (low (dfsT g fuel w st2) v) (low (dfsT g fuel w st2) w))) rfl]
          exact le_trans (unvisCount_le_of_mono g st2 (dfsT g fuel w st2) hpost.mono) hcount
        have hback2 : ∀ b ∈ st.stack,
            (∃ a, freshIn st a ∧ marked (setLowV (dfsT g fuel w st2) v
              (min (low (dfsT g fuel w st2) v) (low (dfsT g fuel w st2) w))) a ∧
              b ∈ getSuccs g a ∧ (a ≠ v ∨ b ∉ ws)) →
            low (setLowV (dfsT g fuel w st2) v
              (min (low (dfsT g fuel w st2) v) (low (dfsT g fuel w st2) w))) v ≤ idx st b := by
          intro b hb hex
          obtain ⟨a, hfa, hma, hedge, hcond⟩ := hex
          by_cases hm2 : marked st2 a
          · have hle := hcore.2.2.2.1
            rcases hcond with hne | hnb
            · have h0 := hback b hb ⟨a, hfa, hm2, hedge, .inl hne⟩
              omega
            · by_cases hbw : b = w
              · exfalso
                exact fresh_not_marked hfw
                  (hbw ▸ hL.mono b (stack_marked hs.tinv b hb))
              · have hnbw : b ∉ w :: ws := by
                  intro hmem
                  rcases List.mem_cons.mp hmem with h | h
                  · exact hbw h
                  · exact hnb h
                have h0 := hback b hb ⟨a, hfa, hm2, hedge, .inr hnbw⟩
                omega
          · have hfa2 : freshIn st2 a := by
              rcases marked_or_fresh st2 a with h | h
              · exact absurd h hm2
              · exact h
            exact hcore.2.2.2.2 b hb ⟨a, hfa2, hma, hedge⟩
        have hIH := dfsLoop_master g fuel st v ihf hs hfv hreach0 ws
          (setLowV (dfsT g fuel w st2) v
            (min (low (dfsT g fuel w st2) v) (low (dfsT g fuel w st2) w)))
          hws2 hcount2 hcore.1 hback2
        refine ⟨hIH.1, hIH.2.1, ?_, ?_, hIH.2.2.2.2⟩
        · intro w2 hw2
          rcases List.mem_cons.mp hw2 with he | hmem
          · rw [he]
            exact hIH.2.2.2.1 w hcore.2.1
          · exact hIH.2.2.1 w2 hmem
        · intro x hx
          exact hIH.2.2.2.1 x (hcore.2.2.1 x hx)
      · have hsome : (st2.indices w).isNone = false := by rwa [Bool.not_eq_true] at hnone
        have hmw : marked st2 w := by
          unfold marked
          cases hx : st2.indices w
          · rw [hx] at hsome
            simp at hsome
          · simp
        by_cases hons : w ∈ st2.onstack
        · -- already on the stack: low-link update only
          have helif := LoopInv_elif g st v w st2 (dfsT g fuel) hfv hL hwmem hsome hons
          have hmeq : ∀ x, marked (succStep (dfsT g fuel) v w st2) x ↔ marked st2 x := by
            intro x
            unfold marked
            rw [helif.2.1]
          have hcount2 : unvisCount g (succStep (dfsT g fuel) v w st2) ≤ fuel := by
            rw [unvisCount_congr g st2 _ helif.2.1]
            exact hcount
          have hback2 : ∀ b ∈ st.stack,
              (∃ a, freshIn st a ∧ marked (succStep (dfsT g fuel) v w st2) a ∧
                b ∈ getSuccs g a ∧ (a ≠ v ∨ b ∉ ws)) →
              low (succStep (dfsT g fuel) v w st2) v ≤ idx st b := by
            intro b hb hex
            obtain ⟨a, hfa, hma, hedge, hcond⟩ := hex
            have hma2 : marked st2 a := (hmeq a).mp hma
            have hle := helif.2.2.1
            rcases hcond with hne | hnb
            · have h0 := hback b hb ⟨a, hfa, hma2, hedge, .inl hne⟩
              omega
            · by_cases hbw : b = w
              · have hbst : w ∈ st.stack := hbw ▸ hb
                have hib : idx st2 w = idx st w := by
                  unfold idx
                  rw [hL.pres_idx w (stack_marked hs.tinv w hbst)]
                have hlw := helif.2.2.2
                rw [hbw]
                omega
              · have hnbw : b ∉ w :: ws := by
                  intro hmem
                  rcases List.mem_cons.mp hmem with h | h
                  · exact hbw h
                  · exact hnb h
                have h0 := hback b hb ⟨a, hfa, hma2, hedge, .inr hnbw⟩
                omega
          have hIH := dfsLoop_master g fuel st v ihf hs hfv hreach0 ws
            (succStep (dfsT g fuel) v w st2) hws2 hcount2 helif.1 hback2
          refine ⟨hIH.1, hIH.2.1, ?_, ?_, hIH.2.2.2.2⟩
          · intro w2 hw2
            rcases List.mem_cons.mp hw2 with he | hmem
            · rw [he]
              exact hIH.2.2.2.1 w ((hmeq w).mpr hmw)
            · exact hIH.2.2.1 w2 hmem
          · intro x hx
            exact hIH.2.2.2.1 x ((hmeq x).mpr hx)
        · -- already finished: no state change
          rw [succStep_else_eq (dfsT g fuel) v w st2 hsome hons]
          have hback2 : ∀ b ∈ st.stack,
              (∃ a, freshIn st a ∧ marked st2 a ∧ b ∈ getSuccs g a ∧ (a ≠ v ∨ b ∉ ws)) →
              low st2 v ≤ idx st b := by
            intro b hb hex
            obtain ⟨a, hfa, hma, hedge, hcond⟩ := hex
            rcases hcond with hne | hnb
            · exact hback b hb ⟨a, hfa, hma, hedge, .inl hne⟩
            · by_cases hbw : b = w
              · exfalso
                apply hons
                refine (hL.sinv.tinv.2.2 w).mpr ?_
                obtain ⟨rem, hform, hrem⟩ := hL.stack_form
                rw [hform, ← hbw]
                exact List.mem_append.mpr (.inr (List.mem_cons_of_mem v hb))
              · have hnbw : b ∉ w :: ws := by
                  intro hmem
                  rcases List.mem_cons.mp hmem with h | h
                  · exact hbw h
                  · exact hnb h
                exact hback b hb ⟨a, hfa, hma, hedge, .inr hnbw⟩
          have hIH := dfsLoop_master g fuel st v ihf hs hfv hreach0 ws st2
            hws2 hcount hL hback2
          refine ⟨hIH.1, hIH.2.1, ?_, hIH.2.2.2.1, hIH.2.2.2.2⟩
          intro w2 hw2
          rcases List.mem_cons.mp hw2 with he | hmem
          · rw [he]
            exact hIH.2.2.2.1 w hmw
          · exact hIH.2.2.1 w2 hmem

theorem closeNode_close_eq (v : String) (stF : TState) (mid rest : List String)
    (hstack : stF.stack = mid ++ v :: rest) (hvmid : v ∉ mid)
    (hc : (stF.lowlink v).getD 0 = (stF.indices v).getD 0) :
    closeNode v stF = closedState stF (mid ++ [v]) rest := by
  unfold closeNode closedState
  rw [if_pos hc,
    show popComp v stF.stack = (mid ++ [v], rest) by
      rw [hstack]
      exact popComp_split v mid rest hvmid]

theorem two_le_length_of_mem {α : Type} {a b : α} {l : List α}
    (ha : a ∈ l) (hb : b ∈ l) (hne : a ≠ b) : 2 ≤ l.length := by
  match l with
  | [] => simp at ha
  | [c] =>
      simp at ha hb
      exact absurd (ha.trans hb.symm) hne
  | c :: d :: t =>
      simp [List.length]

/-- Exit of the inner `dfs`: closing the node after the successor loop
yields the full postcondition — when the low-link equals the discovery
index, the popped nodes are exactly the strongly connected component of
the node, recorded when it has at least two members. -/
theorem DfsPost_close (g : Graph) (st : TState) (v : String) (stF : TState)
    (hs : SInv g st) (hfv : freshIn st v)
    (hL : LoopInv g st v stF)
    (hsuccv : ∀ w ∈ getSuccs g v, marked stF w)
    (hbackF : ∀ b ∈ st.stack,
      (∃ a, freshIn st a ∧ marked stF a ∧ b ∈ getSuccs g a) → low stF v ≤ idx st b) :
    DfsPost g st (closeNode v stF) v := by
  obtain ⟨rem, hform, hrem⟩ := hL.stack_form
  have hvstF : v ∈ stF.stack := by
    rw [hform]
    simp
  have smarkedF := stack_marked hL.sinv.tinv
  have smarked := stack_marked hs.tinv
  have hvnotst : v ∉ st.stack := fun h => fresh_not_marked hfv (smarked v h)
  by_cases hc : (stF.lowlink v).getD 0 = (stF.indices v).getD 0
  · -- the component containing v is closed and popped
    have hvrem : v ∉ rem := fun h => (hrem v h).2 rfl
    rw [closeNode_close_eq v stF rem st.stack hform hvrem hc]
    have hcv : low stF v = idx stF v := hc
    -- every node mutually reachable with v is fresh, indexed and on the stack
    have hQ : ∀ y, Reach g v y → Reach g y v →
        freshIn st y ∧ marked stF y ∧ y ∈ stF.stack := by
      intro y hvy
      induction hvy with
      | refl =>
          intro _
          exact ⟨hfv, hL.marked_v, hvstF⟩
      | @tail b y hvb hedge ih =>
          intro hyv
          have hbv : Reach g b v := Reach_trans (Edge_reach hedge) hyv
          obtain ⟨hfb, hmb, hbs⟩ := ih hbv
          have hmy : marked stF y := by
            by_cases hbveq : b = v
            · exact hsuccv y (hbveq ▸ hedge)
            · exact hL.succ_closed b hfb hmb hbveq y hedge
          have hfy : freshIn st y := by
            rcases marked_or_fresh st y with hm | hf
            · exfalso
              by_cases hys : y ∈ st.stack
              · have h0 := hbackF y hys ⟨b, hfb, hmb, hedge⟩
                have h1 : idx st y < st.index := hs.idx_lt y hm
                have h3 : idx stF v = st.index := hL.idx_v
                omega
              · have hvy2 : Reach g v y := Relation.ReflTransGen.tail hvb hedge
                have hdone := hs.done_closed y hm hys v ⟨hyv, hvy2⟩
                exact fresh_not_marked hfv hdone.1
            · exact hf
          refine ⟨hfy, hmy, ?_⟩
          by_contra hns
          have hvy2 : Reach g v y := Relation.ReflTransGen.tail hvb hedge
          have hdoneF := hL.sinv.done_closed y hmy hns v ⟨hyv, hvy2⟩
          exact hdoneF.2 hvstF
    have hSCCmem : ∀ y, SCCrel g v y → y ∈ rem ++ [v] := by
      intro y hrel
      obtain ⟨hfy, hmy, hys⟩ := hQ y hrel.1 hrel.2
      rw [hform] at hys
      rcases List.mem_append.mp hys with h | h
      · exact List.mem_append.mpr (.inl h)
      · rcases List.mem_cons.mp h with he | h2
        · rw [he]
          exact List.mem_append.mpr (.inr (by simp))
        · exact absurd (smarked y h2) (fresh_not_marked hfy)
    have hSCCof : ∀ y ∈ rem ++ [v], SCCrel g v y := by
      intro y hy
      rcases List.mem_append.mp hy with h | h
      · have hfy := (hrem y h).1
        have hys : y ∈ stF.stack := by
          rw [hform]
          exact List.mem_append.mpr (.inl h)
        exact ⟨hL.reach_v y hfy (smarkedF y hys), hL.lr y hys⟩
      · have he : y = v := by simpa using h
        rw [he]
        exact SCCrel_refl g v
    have hcompfresh : ∀ y ∈ rem ++ [v], freshIn st y := by
      intro y hy
      rcases List.mem_append.mp hy with h | h
      · exact (hrem y h).1
      · have he : y = v := by simpa using h
        rw [he]
        exact hfv
    have hcompmarked : ∀ y ∈ rem ++ [v], marked stF y := by
      intro y hy
      rcases List.mem_append.mp hy with h | h
      · refine smarkedF y ?_
        rw [hform]
        exact List.mem_append.mpr (.inl h)
      · have he : y = v := by simpa using h
        rw [he]
        exact hL.marked_v
    have hnotcomp : ∀ x, marked stF x → x ∉ st.stack → x ∉ rem ++ [v] → x ∉ stF.stack := by
      intro x hm hxst hxc hxF
      rw [hform] at hxF
      rcases List.mem_append.mp hxF with h | h
      · exact hxc (List.mem_append.mpr (.inl h))
      · rcases List.mem_cons.mp h with he | h2
        · exact hxc (List.mem_append.mpr (.inr (by simp [he])))
        · exact hxst h2
    have hpresidx : ∀ x ∈ st.stack, idx stF x = idx st x := by
      intro x hx
      unfold idx
      rw [hL.pres_idx x (smarked x hx)]
    have hpreslow : ∀ x ∈ st.stack, low stF x = low st x := by
      intro x hx
      unfold low
      rw [hL.pres_low x (smarked x hx)]
    have htinvC : TInv (closedState stF (rem ++ [v]) st.stack) := by
      rw [← closeNode_close_eq v stF rem st.stack hform hvrem hc]
      exact (closeNode_inv v stF rem st.stack hform hL.sinv.tinv).1
    have hsccsC : (closedState stF (rem ++ [v]) st.stack).sccs
        = if (rem ++ [v]).length > 1 then stF.sccs ++ [rem ++ [v]] else stF.sccs := rfl
    have hmemsccsC : ∀ c ∈ stF.sccs, c ∈ (closedState stF (rem ++ [v]) st.stack).sccs := by
      intro c hcmem
      rw [hsccsC]
      by_cases hlen : (rem ++ [v]).length > 1
      · rw [if_pos hlen]
        exact List.mem_append.mpr (.inl hcmem)
      · rw [if_neg hlen]
        exact hcmem
    have hsinvC : SInv g (closedState stF (rem ++ [v]) st.stack) := by
      refine ⟨htinvC, hL.sinv.idx_lt, hL.sinv.idx_inj, ?_, ?_, ?_, ?_, ?_, ?_, ?_⟩
      · show st.stack.Pairwise (fun a b => idx stF b < idx stF a)
        refine hs.sorted.imp_of_mem ?_
        intro a b ha hb hab
        rw [hpresidx a ha, hpresidx b hb]
        exact hab
      · intro x hx y hy hxy
        have hx2 : x ∈ st.stack := hx
        have hy2 : y ∈ st.stack := hy
        rw [show idx (closedState stF (rem ++ [v]) st.stack) x = idx stF x from rfl,
          show idx (closedState stF (rem ++ [v]) st.stack) y = idx stF y from rfl,
          hpresidx x hx2, hpresidx y hy2] at hxy
        exact hs.reach_up x hx2 y hy2 hxy
      · intro x hx
        have hx2 : x ∈ st.stack := hx
        show low stF x ≤ idx stF x
        rw [hpresidx x hx2, hpreslow x hx2]
        exact hs.low_le x hx2
      · intro x hx
        have hx2 : x ∈ st.stack := hx
        obtain ⟨z, hz, hzi, hzr⟩ := hs.witness x hx2
        refine ⟨z, hz, ?_, hzr⟩
        show idx stF z = low stF x
        rw [hpresidx z hz, hpreslow x hx2]
        exact hzi
      · intro x hm hxs y hxy
        have hm2 : marked stF x := hm
        have hxs2 : x ∉ st.stack := hxs
        by_cases hxc : x ∈ rem ++ [v]
        · have hvy : SCCrel g v y := SCCrel_trans (hSCCof x hxc) hxy
          have hyc := hSCCmem y hvy
          refine ⟨hcompmarked y hyc, ?_⟩
          intro hys
          have hys2 : y ∈ st.stack := hys
          exact fresh_not_marked (hcompfresh y hyc) (smarked y hys2)
        · have hxF : x ∉ stF.stack := hnotcomp x hm2 hxs2 hxc
          obtain ⟨hmy, hyF⟩ := hL.sinv.done_closed x hm2 hxF y hxy
          refine ⟨hmy, ?_⟩
          intro hys
          have hys2 : y ∈ st.stack := hys
          apply hyF
          rw [hform]
          exact List.mem_append.mpr (.inr (List.mem_cons_of_mem v hys2))
      · intro x hm hxs y hyx hxy
        have hm2 : marked stF x := hm
        have hxs2 : x ∉ st.stack := hxs
        by_cases hxc : x ∈ rem ++ [v]
        · have hvy : SCCrel g v y := SCCrel_trans (hSCCof x hxc) hxy
          have hyc := hSCCmem y hvy
          have hlen : (rem ++ [v]).length > 1 := by
            have := two_le_length_of_mem hxc hyc (fun he => hyx he.symm)
            omega
          refine ⟨rem ++ [v], ?_, hxc, hyc⟩
          rw [hsccsC, if_pos hlen]
          simp
        · have hxF : x ∉ stF.stack := hnotcomp x hm2 hxs2 hxc
          obtain ⟨c, hcmem, hxin, hyin⟩ := hL.sinv.covered x hm2 hxF y hyx hxy
          exact ⟨c, hmemsccsC c hcmem, hxin, hyin⟩
      · intro c hcmem
        rw [hsccsC] at hcmem
        by_cases hlen : (rem ++ [v]).length > 1
        · rw [if_pos hlen] at hcmem
          rcases List.mem_append.mp hcmem with h | h
          · exact hL.sinv.sccs_good c h
          · have he : c = rem ++ [v] := by simpa using h
            subst he
            refine ⟨by omega, ?_⟩
            intro x hxc y
            constructor
            · intro hxy
              exact hSCCmem y (SCCrel_trans (hSCCof x hxc) hxy)
            · intro hyc
              exact SCCrel_trans (SCCrel_symm (hSCCof x hxc)) (hSCCof y hyc)
        · rw [if_neg hlen] at hcmem
          exact hL.sinv.sccs_good c hcmem
    refine ⟨hsinvC, hL.pres_idx, hL.pres_low, hL.mono, hL.counter_gt, ⟨[], rfl, by simp⟩,
      hL.marked_v, hL.idx_v, hL.new_idx_ge, hL.reach_v, ?_, hbackF, ?_⟩
    · intro x hfx hmx w2 hw2
      by_cases hxv : x = v
      · rw [hxv] at hw2
        exact hsuccv w2 hw2
      · exact hL.succ_closed x hfx hmx hxv w2 hw2
    · exact .inl ⟨rfl, hvnotst, hc⟩
  · -- low-link strictly below the discovery index: v stays on the stack
    have heqid : closeNode v stF = stF := by
      unfold closeNode
      rw [if_neg hc]
    rw [heqid]
    have hcne : low stF v ≠ idx stF v := hc
    refine ⟨hL.sinv, hL.pres_idx, hL.pres_low, hL.mono, hL.counter_gt, ?_,
      hL.marked_v, hL.idx_v, hL.new_idx_ge, hL.reach_v, ?_, hbackF, ?_⟩
    · refine ⟨rem ++ [v], ?_, ?_⟩
      · rw [hform]
        simp
      · intro x hx
        rcases List.mem_append.mp hx with h | h
        · exact (hrem x h).1
        · have he : x = v := by simpa using h
          rw [he]
          exact hfv
    · intro x hfx hmx w2 hw2
      by_cases hxv : x = v
      · rw [hxv] at hw2
        exact hsuccv w2 hw2
      · exact hL.succ_closed x hfx hmx hxv w2 hw2
    · refine .inr ⟨hvstF, ?_⟩
      intro x hfx hxs
      by_cases hxv : x = v
      · rw [hxv]
        have hle := hL.sinv.low_le v hvstF
        exact ⟨le_refl _, lt_of_le_of_ne hle hcne⟩
      · obtain ⟨h1, h2⟩ := hL.fin_above x hfx hxs hxv
        exact ⟨h2, h1⟩

/-- The inner `dfs` satisfies its postcondition at every sufficient fuel. -/
theorem dfsT_master (g : Graph) : ∀ fuel, DfsMaster g fuel := by
  intro fuel
  induction fuel with
  | zero =>
      intro v st hv hfv hcount hs hreach
      exfalso
      have := one_le_unvisCount g st v hv hfv
      omega
  | succ fuel ih =>
      intro v st hv hfv hcount hs hreach
      rw [dfsT_succ_eq]
      have hcount1 : unvisCount g (pushNode v st) ≤ fuel := by
        have := unvisCount_pushNode_lt g st v hv hfv
        omega
      have hLpush := LoopInv_push g st v hs hfv hreach
      have hback0 : ∀ b ∈ st.stack,
          (∃ a, freshIn st a ∧ marked (pushNode v st) a ∧ b ∈ getSuccs g a ∧
            (a ≠ v ∨ b ∉ getSuccs g v)) →
          low (pushNode v st) v ≤ idx st b := by
        intro b hb hex
        obtain ⟨a, hfa, hma, hedge, hcond⟩ := hex
        exfalso
        have hav : a = v := by
          by_cases h : a = v
          · exact h
          · exact absurd ((pushNode_marked_ne v st a h).mp hma) (fresh_not_marked hfa)
        rcases hcond with hne | hnb
        · exact hne hav
        · rw [hav] at hedge
          exact hnb hedge
      have hloop := dfsLoop_master g fuel st v ih hs hfv hreach (getSuccs g v)
        (pushNode v st) (fun w hw => hw) hcount1 hLpush hback0
      exact DfsPost_close g st v _ hs hfv hloop.1 hloop.2.2.1 hloop.2.2.2.2

/-- The key loop of `strongly_connected_components` maintains the full
invariant with an empty stack between top-level calls. -/
theorem scc_top_inv (g : Graph) :
    SInv g (g.foldl
      (fun st p => if (st.indices p.1).isNone then dfsT g (fuelFor g) p.1 st else st)
      initTState) ∧
    (g.foldl
      (fun st p => if (st.indices p.1).isNone then dfsT g (fuelFor g) p.1 st else st)
      initTState).stack = [] := by
  refine foldl_preserve (fun s : TState => SInv g s ∧ s.stack = []) _ _ _ ⟨?_, rfl⟩ ?_
  · refine ⟨⟨by simp [initTState], ?_, by simp [initTState]⟩, ?_, ?_, ?_, ?_, ?_, ?_, ?_,
      ?_, ?_⟩
    · intro x hx
      simp [initTState] at hx
    · intro x hx
      simp [marked, initTState] at hx
    · intro x y hx hy
      simp [marked, initTState] at hx
    · exact List.Pairwise.nil
    · intro x hx
      simp [initTState] at hx
    · intro x hx
      simp [initTState] at hx
    · intro x hx
      simp [initTState] at hx
    · intro x hx
      simp [marked, initTState] at hx
    · intro x hx
      simp [marked, initTState] at hx
    · intro c hc
      simp [initTState] at hc
  · intro st2 p hp hP
    obtain ⟨hsinv2, hstack2⟩ := hP
    by_cases hg : (st2.indices p.1).isNone = true
    · rw [if_pos hg]
      have hfv : freshIn st2 p.1 := Option.isNone_iff_eq_none.mp hg
      have hcount : unvisCount g st2 ≤ fuelFor g := by
        have := unvisCount_le_length g st2
        unfold fuelFor
        omega
      have hpost := dfsT_master g (fuelFor g) p.1 st2 (key_mem_nodesOf g p hp) hfv hcount
        hsinv2 (by rw [hstack2]; intro x hx; simp at hx)
      refine ⟨hpost.sinv, ?_⟩
      rcases hpost.dichotomy with ⟨hA1, _, _⟩ | ⟨hvin, hB⟩
      · rw [hA1, hstack2]
      · exfalso
        obtain ⟨new, hnewstack, hnewfresh⟩ := hpost.stack_suffix
        obtain ⟨z, hz, hzi, hzr⟩ := hpost.sinv.witness p.1 hvin
        have hzfresh : freshIn st2 z := by
          rw [hnewstack, hstack2, List.append_nil] at hz
          exact hnewfresh z hz
        have hzmark : marked (dfsT g (fuelFor g) p.1 st2) z :=
          stack_marked hpost.sinv.tinv z hz
        have hge := hpost.new_idx_ge z hzfresh hzmark
        have hBv := (hB p.1 hfv hvin).2
        have hidxv := hpost.idx_v
        have hidxlt := hpost.sinv.idx_lt p.1 hpost.marked_v
        omega
    · rw [if_neg hg]
      exact ⟨hsinv2, hstack2⟩

/-- C1: for every finite directed graph given as an adjacency mapping,
`strongly_connected_components` returns exactly the strongly connected
components with two or more members: every returned list is a
duplicate-free maximal set of mutually reachable nodes with at least two
elements, every pair of distinct mutually reachable nodes appears together
in some returned component (so singleton components are never returned and
none are missed), and on the graph `{A:{B}, B:{C}, C:{A}, D:{}}` the result
is exactly one component with member set `{A, B, C}` and no component
containing `D`. -/
theorem scc_correct (g : Graph) :
    (∀ c ∈ strongly_connected_components g,
      2 ≤ c.length ∧ c.Nodup ∧ ∀ x ∈ c, ∀ y, (SCCrel g x y ↔ y ∈ c)) ∧
    (∀ x y, x ≠ y → SCCrel g x y →
      ∃ c ∈ strongly_connected_components g, x ∈ c ∧ y ∈ c) ∧
    strongly_connected_components
      [("A", ["B"]), ("B", ["C"]), ("C", ["A"]), ("D", [])] = [["C", "B", "A"]] := by
  obtain ⟨hsinv, hstack⟩ := scc_top_inv g
  refine ⟨?_, ?_, by decide⟩
  · intro c hcmem
    have hgood := hsinv.sccs_good c hcmem
    have hflat := (List.nodup_append.mp hsinv.tinv.1).1
    have hnd := (nodup_flatten_disjoint _ hflat).2 c hcmem
    exact ⟨hgood.1, hnd, hgood.2⟩
  · intro x y hne hrel
    rcases Relation.ReflTransGen.cases_head hrel.1 with he | ⟨c0, hc0, _⟩
    · exact absurd he hne
    · have hkey : x ∈ g.map Prod.fst := by
        have hc0m : c0 ∈ getSuccs g x := hc0
        unfold getSuccs at hc0m
        cases hl : g.lookup x with
        | none =>
            rw [hl] at hc0m
            simp at hc0m
        | some ws =>
            exact List.mem_map.mpr ⟨(x, ws), lookup_some_mem g x ws hl, rfl⟩
      obtain ⟨p, hp, hpx⟩ := List.mem_map.mp hkey
      have hml := scc_loop_marks g g initTState (fun p2 hp2 => key_mem_nodesOf g p2 hp2)
        (by
          intro x2 hx2
          simp [initTState] at hx2)
      have hmx : marked (g.foldl
          (fun st p => if (st.indices p.1).isNone then dfsT g (fuelFor g) p.1 st else st)
          initTState) x := by
        rw [← hpx]
        exact hml.2.1 p hp
      have hxnot : x ∉ (g.foldl
          (fun st p => if (st.indices p.1).isNone then dfsT g (fuelFor g) p.1 st else st)
          initTState).stack := by
        rw [hstack]
        exact List.not_mem_nil x
      exact hsinv.covered x hmx hxnot y (fun he => hne he.symm) hrel

theorem scc_correct_witness :
    ("A" : String) ≠ "B" ∧
    ∃ c ∈ strongly_connected_components
      [("A", ["B"]), ("B", ["C"]), ("C", ["A"]), ("D", [])], "A" ∈ c ∧ "B" ∈ c := by
  refine ⟨by decide, ?_⟩
  refine (scc_correct [("A", ["B"]), ("B", ["C"]), ("C", ["A"]), ("D", [])]).2.1 "A" "B"
    (by decide) ⟨?_, ?_⟩
  · exact Edge_reach (show ("B" : String) ∈ getSuccs
      [("A", ["B"]), ("B", ["C"]), ("C", ["A"]), ("D", [])] "A" by decide)
  · exact Reach_trans
      (Edge_reach (show ("C" : String) ∈ getSuccs
        [("A", ["B"]), ("B", ["C"]), ("C", ["A"]), ("D", [])] "B" by decide))
      (Edge_reach (show ("A" : String) ∈ getSuccs
        [("A", ["B"]), ("B", ["C"]), ("C", ["A"]), ("D", [])] "C" by decide))

